import Mathlib

namespace GhReview

/-!
Verification of the diff-to-context reconstruction and review-orchestration
pipeline of the `gh-review` GitHub PR review bot.

The JavaScript sources are shallowly embedded: every string-processing
function is translated to an executable Lean function over `List Char`
(a JS string is its list of UTF-16-ish code points; all inputs of interest
are plain text).  JS regular expressions are compiled by hand to
deterministic scanners; where a regex admits backtracking, the doc comment
of the corresponding definition records why the deterministic maximal-munch
translation computes the same match.  Asynchronous orchestration code is
embedded as pure functions over explicit outcome parameters: every external
call (LLM generation, content fetch, comment posting) becomes an
`Except`/outcome argument, so a theorem quantifying over those arguments
covers every possible behaviour of the collaborator.
-/

/-- The `{` character, written via its code point. -/
def lbrace : Char := Char.ofNat 123

/-- The `}` character, written via its code point. -/
def rbrace : Char := Char.ofNat 125

/-- JS `\s` (whitespace class) restricted to the code points that occur in
text handled by the bot: space, tab, LF, CR, FF, VT. -/
def isWsChar (c : Char) : Bool :=
  c = ' ' || c = '\t' || c = '\n' || c = '\r' || c = Char.ofNat 12 || c = Char.ofNat 11

/-- ASCII decimal digit test (JS `[0-9]`). -/
def isDigitCh (c : Char) : Bool := '0' ≤ c ∧ c ≤ '9'

/-- JS `\w` (word character): ASCII letter, digit or underscore. -/
def isWordChar (c : Char) : Bool :=
  ('a' ≤ c ∧ c ≤ 'z') || ('A' ≤ c ∧ c ≤ 'Z') || isDigitCh c || c = '_'

/-- ASCII fragment of JS `String.prototype.toLowerCase`, applied per character. -/
def lowerCh (c : Char) : Char :=
  if 'A' ≤ c ∧ c ≤ 'Z' then Char.ofNat (c.toNat + 32) else c

/-- `toLowerCase` on a string represented as a character list. -/
def lowerL (l : List Char) : List Char := l.map lowerCh

/-- JS `String.prototype.trim`: drop leading and trailing whitespace
(trailing first, via reversal, then leading). -/
def trimL (l : List Char) : List Char :=
  (l.reverse.dropWhile isWsChar).reverse.dropWhile isWsChar

/-- Does `needle` occur at the front of `haystack`? (list-prefix test). -/
def leadsWith : List Char → List Char → Bool
  | [], _ => true
  | _ :: _, [] => false
  | a :: as, b :: bs => a = b && leadsWith as bs

/-- JS `String.prototype.includes`: does `needle` occur anywhere in `haystack`? -/
def containsL (haystack needle : List Char) : Bool :=
  if leadsWith needle haystack then true
  else match haystack with
    | [] => false
    | _ :: t => containsL t needle

/-- Split a character list at every occurrence of the separator character,
the semantics of JS `String.prototype.split` with a one-character separator. -/
def splitCh (c : Char) : List Char → List (List Char)
  | [] => [[]]
  | x :: t =>
    match splitCh c t with
    | [] => [[]]
    | h :: r => if x = c then [] :: h :: r else (x :: h) :: r

/-- The lines of a JS string: `content.split('\n')` on the character list. -/
def linesOf (s : String) : List (List Char) := splitCh '\n' s.toList

/-- Number of occurrences of a character in a line, the semantics of
`(line.match(/c/g) || []).length`. -/
def countChar (c : Char) (l : List Char) : Nat := l.count c

/-!
## `shouldPostInlineComment` (src/index.js lines 178-198, identically
src/utils.js lines 67-87)

Decides whether a generated inline comment is actionable.  Falsy input
(the empty string) is rejected; otherwise the lowercased text is rejected
exactly when it contains one of a fixed list of "no issue" phrases.
-/

/-- The fixed skip-phrase list of `shouldPostInlineComment`, verbatim from
src/index.js lines 181-196. -/
def skipPhrases : List (List Char) :=
  ["no issues".toList,
   "no issue".toList,
   "no suggestions".toList,
   "no suggestion".toList,
   "no improvements".toList,
   "looks good".toList,
   "lgtm".toList,
   "nothing to change".toList,
   "nothing to improve".toList,
   "no feedback".toList,
   "good job".toList,
   "no actionable".toList,
   "no changes".toList,
   "no further action".toList]

/-- `shouldPostInlineComment(comment)` from src/index.js lines 178-198:
`false` for falsy input, otherwise `true` iff the lowercased comment
contains none of the `skipPhrases`. -/
def shouldPostInlineComment (comment : String) : Bool :=
  if comment = "" then false
  else
    let c := lowerL comment.toList
    !(skipPhrases.any fun p => containsL c p)

/-!
## `getChangedLineNumbers` (src/index.js lines 346-374)

Parses a unified-diff patch into the 1-based changed line numbers on the
head (`+` lines) and base (`-` lines) side.  Cursors are JS numbers and may
transiently be negative (a hunk header `@@ -0,...` sets the base cursor to
-1), so they are embedded as `Int`.
-/

/-- Maximal run of decimal digits at the front of the list, returning the
run and the remainder (the deterministic reading of a greedy `[0-9]+` /
`[0-9]*`). -/
def takeDigits (l : List Char) : List Char × List Char :=
  (l.takeWhile isDigitCh, l.dropWhile isDigitCh)

/-- Numeric value of a digit run, the semantics of `parseInt(run, 10)` for a
non-empty all-digit run. -/
def digitsVal (l : List Char) : Nat :=
  l.foldl (fun a c => 10 * a + (c.toNat - 48)) 0

/-- One attempt, at the current position, to match the tail
`([0-9]+),?([0-9]*) <term>` of the hunk-header regex of
`getChangedLineNumbers` (src/index.js line 355) and of the header-rewriting
regex of `generateContextDiff`.  `term` is the literal that must follow
(" +" for the first number pair, " @@" or "" for the second).

The JS regex is backtracking, but backtracking never changes the result
here: `([0-9]+)` is greedy, and giving digits back to the subsequent
`,?([0-9]*)` leaves the scan at the same position with the same
continuation, so the maximal-munch reading below matches exactly when the
regex does, with the same captured groups.  When the optional comma is
present, the `,?`-skipped fallback would have to match `term` (which starts
with a non-comma character) against the comma, so it never succeeds and is
omitted. -/
def parseNumPair (term : List Char) (l : List Char) :
    Option (Nat × Option (List Char) × List Char) :=
  if l.takeWhile isDigitCh = [] then none
  else if (l.dropWhile isDigitCh).head? = some ',' then
    if leadsWith term (((l.dropWhile isDigitCh).tail).dropWhile isDigitCh) then
      some (digitsVal (l.takeWhile isDigitCh),
        some (((l.dropWhile isDigitCh).tail).takeWhile isDigitCh),
        ((((l.dropWhile isDigitCh).tail).dropWhile isDigitCh)).drop term.length)
    else none
  else
    if leadsWith term (l.dropWhile isDigitCh) then
      some (digitsVal (l.takeWhile isDigitCh), none,
        (l.dropWhile isDigitCh).drop term.length)
    else none

/-- First match of `-([0-9]+),?([0-9]*) \+([0-9]+),?([0-9]*)` in a line,
returning the two captured start numbers (groups 1 and 3), the semantics of
`line.match(...)` at src/index.js line 355.  The scan tries every start
position from the left, as the regex engine does. -/
def findHunkNums : List Char → Option (Nat × Nat)
  | [] => none
  | c :: rest =>
    (if c = '-' then
      match parseNumPair (' ' :: '+' :: []) rest with
      | some (a, _, r1) =>
        match parseNumPair [] r1 with
        | some (b, _, _) => some (a, b)
        | none => none
      | none => none
    else none).orElse fun _ => findHunkNums rest

/-- Result record of `getChangedLineNumbers`. -/
structure ChangedLineSet where
  headLines : List Int
  baseLines : List Int
deriving DecidableEq, Repr

/-- The sequential scanning loop of `getChangedLineNumbers`
(src/index.js lines 353-372). -/
def changedLinesLoop : List (List Char) → Int → Int →
    List Int → List Int → ChangedLineSet
  | [], _, _, hAcc, bAcc => ⟨hAcc.reverse, bAcc.reverse⟩
  | line :: rest, currentHead, currentBase, hAcc, bAcc =>
    if leadsWith ['@', '@'] line then
      match findHunkNums line with
      | some (a, c) =>
        changedLinesLoop rest ((c : Int) - 1) ((a : Int) - 1) hAcc bAcc
      | none => changedLinesLoop rest currentHead currentBase hAcc bAcc
    else if leadsWith ['+'] line ∧ ¬leadsWith ['+', '+', '+'] line then
      changedLinesLoop rest (currentHead + 1) currentBase
        ((currentHead + 1) :: hAcc) bAcc
    else if leadsWith ['-'] line ∧ ¬leadsWith ['-', '-', '-'] line then
      changedLinesLoop rest currentHead (currentBase + 1)
        hAcc ((currentBase + 1) :: bAcc)
    else
      changedLinesLoop rest (currentHead + 1) (currentBase + 1) hAcc bAcc

/-- `getChangedLineNumbers(diff)` from src/index.js lines 346-374. -/
def getChangedLineNumbers (diff : String) : ChangedLineSet :=
  if diff = "" then ⟨[], []⟩
  else changedLinesLoop (linesOf diff) 0 0 [] []

/-- A line that records into `headLines`: starts with `+` but not `+++`
(hunk-header lines start with `@@` and are skipped before this test). -/
def isAddedLine (l : List Char) : Bool :=
  !leadsWith ['@', '@'] l && leadsWith ['+'] l && !leadsWith ['+', '+', '+'] l

/-- A line that records into `baseLines`: starts with `-` but not `---`. -/
def isRemovedLine (l : List Char) : Bool :=
  !leadsWith ['@', '@'] l && leadsWith ['-'] l && !leadsWith ['-', '-', '-'] l

/-!
## `expandLineNumbersToBlock` (src/index.js lines 380-444)

Expands changed line numbers to enclosing syntactic blocks.  Line numbers
are JS numbers, embedded as `Int`; internal 0-based indices are `Nat`.
The JS code dereferences `undefined` (and throws) when given line numbers
below 1 or beyond the file; the embedding totalises those accesses with
`List.getD`, and every theorem about the function restricts its inputs to
1-based in-bounds line numbers, where the two agree.

The loops of `expandRange` are embedded with an explicit fuel argument that
counts the remaining loop iterations; every call site passes exactly the
number of iterations the JS `for` loop can make, so fuel exhaustion
coincides with the JS loop running off the end of its index range.
-/

/-- The block-introducer keywords of the boundary regex
`/\b(switch|function|def|class|if|for|while)\b/` (src/index.js line 392). -/
def blockKeywords : List (List Char) :=
  ["switch".toList, "function".toList, "def".toList, "class".toList,
   "if".toList, "for".toList, "while".toList]

/-- Does one of the `blockKeywords` occur at the current position, with
`\b` word boundaries on both sides?  `prev` is the character immediately
before the current position (`none` at the start of the line). -/
def kwHere (prev : Option Char) (l : List Char) : Bool :=
  blockKeywords.any fun w =>
    (match prev with | none => true | some c => !isWordChar c) &&
    leadsWith w l &&
    (match (l.drop w.length).head? with | none => true | some c => !isWordChar c)

/-- Scan of a line for a word-boundary keyword occurrence. -/
def kwScan (prev : Option Char) : List Char → Bool
  | [] => kwHere prev []
  | c :: t => kwHere prev (c :: t) || kwScan (some c) t

/-- `keywordRegex.test(line)` for the boundary regex of `expandRange`. -/
def containsBlockKeyword (l : List Char) : Bool := kwScan none l

/-- Backward walk of brace mode (src/index.js lines 388-396):
from index `i` downward, accumulate `+count('}') - count('{')` per line and
stop at the first line where the depth goes negative or the line matches the
keyword regex; if the walk passes line 0 without stopping, `startIdx` keeps
its original value `orig`. -/
def braceUp (lines : List (List Char)) (orig : Nat) : Nat → Nat → Int → Nat
  | 0, _, _ => orig
  | fuel + 1, i, depth =>
    if depth + (countChar rbrace (lines.getD i []) : Int)
        - (countChar lbrace (lines.getD i []) : Int) < 0
        ∨ containsBlockKeyword (lines.getD i []) then i
    else if i = 0 then orig
    else braceUp lines orig fuel (i - 1)
      (depth + (countChar rbrace (lines.getD i []) : Int)
        - (countChar lbrace (lines.getD i []) : Int))

/-- Forward walk of brace mode (src/index.js lines 398-406): from index `i`
upward while `i < lines.length`, accumulate `+count('{') - count('}')` per
line and stop at the first line where the depth goes negative; if the walk
exits the file, `endIdx` keeps its original value `orig`. -/
def braceDown (lines : List (List Char)) (orig : Nat) : Nat → Nat → Int → Nat
  | 0, _, _ => orig
  | fuel + 1, i, depth =>
    if i < lines.length then
      if depth + (countChar lbrace (lines.getD i []) : Int)
          - (countChar rbrace (lines.getD i []) : Int) < 0 then i
      else braceDown lines orig fuel (i + 1)
        (depth + (countChar lbrace (lines.getD i []) : Int)
          - (countChar rbrace (lines.getD i []) : Int))
    else orig

/-- Length of the leading-whitespace match `line.match(/^\s*/)[0]`. -/
def indentOfL (l : List Char) : Nat := (l.takeWhile isWsChar).length

/-- `line.trim() === ''`. -/
def isBlankL (l : List Char) : Bool := l.all isWsChar

/-- Backward walk of indentation mode (src/index.js lines 410-414): from
`startIdx - 1` downward, skip blank lines, stop one past the first non-blank
line with strictly smaller indentation. -/
def indentUp (lines : List (List Char)) (base orig : Nat) : Nat → Nat → Nat
  | 0, _ => orig
  | fuel + 1, i =>
    if isBlankL (lines.getD i []) then
      (if i = 0 then orig else indentUp lines base orig fuel (i - 1))
    else if indentOfL (lines.getD i []) < base then i + 1
    else (if i = 0 then orig else indentUp lines base orig fuel (i - 1))

/-- Forward walk of indentation mode (src/index.js lines 415-419). -/
def indentDown (lines : List (List Char)) (base orig : Nat) : Nat → Nat → Nat
  | 0, _ => orig
  | fuel + 1, i =>
    if i < lines.length then
      if isBlankL (lines.getD i []) then indentDown lines base orig fuel (i + 1)
      else if indentOfL (lines.getD i []) < base then i - 1
      else indentDown lines base orig fuel (i + 1)
    else orig

/-- `content.includes('{') && content.includes('}')` (src/index.js line 386). -/
def hasBracesStr (content : String) : Bool :=
  content.toList.contains lbrace && content.toList.contains rbrace

/-- `expandRange(startIdx, endIdx)` from src/index.js lines 385-422,
returning the expanded 0-based index pair. -/
def expandRange (content : String) (lines : List (List Char)) (s e : Nat) :
    Nat × Nat :=
  if hasBracesStr content then
    (braceUp lines s (s + 1) s 0, braceDown lines e (lines.length - e) e 0)
  else
    ((if s = 0 then s
      else indentUp lines (indentOfL (lines.getD s [])) s s (s - 1)),
     indentDown lines (indentOfL (lines.getD s [])) e (lines.length - (e + 1)) (e + 1))

/-- The contiguous-run grouping loop of `expandLineNumbersToBlock`
(src/index.js lines 424-435) over the sorted deduplicated 1-based input,
returning 1-based inclusive run bounds. -/
def groupRunsGo (rangeStart prev : Int) : List Int → List (Int × Int)
  | [] => [(rangeStart, prev)]
  | x :: xs =>
    if x = prev + 1 then groupRunsGo rangeStart x xs
    else (rangeStart, prev) :: groupRunsGo x x xs

/-- All maximal contiguous runs of a sorted list. -/
def groupRuns : List Int → List (Int × Int)
  | [] => []
  | a :: rest => groupRunsGo a a rest

/-- `Array.from(new Set(l)).sort((a, b) => a - b)`: the ascending sorted
list of the distinct elements of `l`, used both for the input normalisation
and for the final result of `expandLineNumbersToBlock` (src/index.js lines
383 and 443). -/
def jsSetSort (l : List Int) : List Int := (l.dedup).insertionSort (· ≤ ·)

/-- `expandLineNumbersToBlock(content, lineNumbers)` from src/index.js
lines 380-444. -/
def expandLineNumbersToBlock (content : String) (lineNumbers : List Int) :
    List Int :=
  if content = "" ∨ lineNumbers = [] then lineNumbers
  else
    let lines := linesOf content
    let sorted := jsSetSort lineNumbers
    let ranges := (groupRuns sorted).map fun p => ((p.1 - 1).toNat, (p.2 - 1).toNat)
    let expanded := ranges.flatMap fun p =>
      let q := expandRange content lines p.1 p.2
      (List.range' q.1 (q.2 + 1 - q.1)).map fun i => (↑i + 1 : Int)
    jsSetSort expanded

/-!
## `mergeSimilarLineAnalyses` (src/index.js lines 200-234)

Consolidates per-line findings through one LLM call whose response is
parsed as repeated `LINES: ... / COMMENT: ... / END_COMMENT` blocks.  The
LLM call is embedded as an `Except String String` outcome argument (a
thrown error or the response text); the parse code itself is total, so the
source's inner `try`/`catch` around it can never fire and is represented by
the parser's totality.

Recursive scanners take an explicit fuel argument equal to the input
length; each step consumes at least one character, so the fuel never runs
out on the defining call.
-/

/-- A per-line finding `{line, comment}`. -/
structure LineFinding where
  line : Int
  comment : String
deriving DecidableEq, Repr

/-- A merged finding `{lines, comment}`. -/
structure MergedFinding where
  lines : List Int
  comment : String
deriving DecidableEq, Repr

/-- Case-insensitive character comparison (regex `/i` flag, ASCII). -/
def eqCi (a b : Char) : Bool := lowerCh a = lowerCh b

/-- Case-insensitive prefix test. -/
def leadsWithCi : List Char → List Char → Bool
  | [], _ => true
  | _ :: _, [] => false
  | a :: as, b :: bs => eqCi a b && leadsWithCi as bs

/-- Index of the last `'\n'` in a list, if any. -/
def lastNlPos : List Char → Option Nat
  | [] => none
  | c :: t =>
    match lastNlPos t with
    | some k => some (k + 1)
    | none => if c = '\n' then some 0 else none

/-- Given the text following a matched `END_COMMENT`, decide whether the
tail `\s*(?:\n|$)` of the split regex `/\nEND_COMMENT\s*(?:\n|$)/i`
matches, and return the remainder after the separator.  The greedy `\s*`
takes the maximal whitespace run `W`; `$` succeeds if `W` reaches the end
of the string, otherwise `(?:\n)` must consume a newline inside `W`, and
backtracking picks the rightmost one. -/
def sepTail (xs : List Char) : Option (List Char) :=
  let w := xs.takeWhile isWsChar
  if xs.drop w.length = [] then some []
  else
    match lastNlPos w with
    | some k => some (xs.drop (k + 1))
    | none => none

/-- The global split `response.split(/\nEND_COMMENT\s*(?:\n|$)/i)`
(src/index.js line 214), scanning left to right for non-overlapping
separator matches. -/
def splitECAux : Nat → List Char → List (List Char)
  | 0, l => [l]
  | fuel + 1, l =>
    match l with
    | [] => [[]]
    | c :: rest =>
      if c = '\n' ∧ leadsWithCi "END_COMMENT".toList rest = true ∧
          (sepTail (rest.drop 11)).isSome then
        [] :: splitECAux fuel ((sepTail (rest.drop 11)).getD [])
      else
        match splitECAux fuel rest with
        | [] => [[]]
        | h :: r => (c :: h) :: r

/-- `response.split(/\nEND_COMMENT\s*(?:\n|$)/i)` with sufficient fuel. -/
def splitEndComment (l : List Char) : List (List Char) := splitECAux l.length l

/-- Characters of the class `[0-9,\s]`. -/
def isNumClass (c : Char) : Bool := isDigitCh c || c = ',' || isWsChar c

/-- The numeric tokens of the captured `LINES` group:
`match[1].split(/[,\s]+/).map(n => parseInt(n, 10)).filter(n => !isNaN(n))`
(src/index.js lines 221-224), i.e. the maximal digit runs of the group,
which contains only digits, commas and whitespace. -/
def numTokensAux : Nat → List Char → List Int
  | 0, _ => []
  | fuel + 1, l =>
    match l with
    | [] => []
    | c :: t =>
      if isDigitCh c then
        (digitsVal ((c :: t).takeWhile isDigitCh) : Int) ::
          numTokensAux fuel ((c :: t).dropWhile isDigitCh)
      else numTokensAux fuel t

/-- Numeric tokens with sufficient fuel. -/
def numTokens (l : List Char) : List Int := numTokensAux l.length l

/-- Does the list end in a newline or carriage return? -/
def endsInNl (l : List Char) : Bool :=
  match l.getLast? with
  | some c => c = '\n' || c = '\r'
  | none => false

/-- Attempt of `section.match(/LINES\s*:\s*([0-9,\s]+)[\r\n]+COMMENT\s*:\s*([\s\S]*)/i)`
at the position right after a case-insensitive `LINES` occurrence.

The elaboration of the backtracking regex into the deterministic test below:
after the `:`, the greedy `\s*` and the capture class `[0-9,\s]+` together
always consume a prefix of the maximal `[0-9,\s]` run `R` (whitespace is in
the class), and the `[\r\n]+` can only consume trailing characters of `R`
because `C` (of `COMMENT`) is outside the class; so the regex matches here
exactly when `R` has at least two characters, ends in `\r` or `\n` (with
the greedy capture giving `[\r\n]+` exactly one character), and is followed
by `COMMENT` then `\s*:`; the numeric tokens of the capture equal those of
`R` because only a trailing newline is excluded.  Group 2 takes the whole
remainder of the section. -/
def sectionAfterLines (xs : List Char) : Option (List Int × List Char) :=
  match xs.dropWhile isWsChar with
  | ':' :: xs2 =>
    if 2 ≤ (xs2.takeWhile isNumClass).length ∧
        endsInNl (xs2.takeWhile isNumClass) = true ∧
        leadsWithCi "COMMENT".toList (xs2.dropWhile isNumClass) = true then
      match ((xs2.dropWhile isNumClass).drop 7).dropWhile isWsChar with
      | ':' :: commentChars => some (numTokens (xs2.takeWhile isNumClass), commentChars)
      | _ => none
    else none
  | _ => none

/-- First-match scan of the `LINES`/`COMMENT` regex over one section:
try each start position from the left, as the regex engine does. -/
def sectionScan : List Char → Option (List Int × List Char)
  | [] => none
  | c :: rest =>
    if leadsWithCi "LINES".toList (c :: rest) then
      match sectionAfterLines ((c :: rest).drop 5) with
      | some r => some r
      | none => sectionScan rest
    else sectionScan rest

/-- The response-parsing phase of `mergeSimilarLineAnalyses`
(src/index.js lines 212-228): split on `END_COMMENT`, trim, drop empty
sections, match each section against the `LINES`/`COMMENT` regex, and keep
the groups with a non-empty line list and non-empty trimmed comment. -/
def parseMergedSections (response : String) : List MergedFinding :=
  (((splitEndComment response.toList).map trimL).filter
      (fun l => !l.isEmpty)).foldr
    (fun sec acc =>
      match sectionScan sec with
      | some (lines, commentChars) =>
        if lines ≠ [] ∧ trimL commentChars ≠ [] then
          ⟨lines, String.mk (trimL commentChars)⟩ :: acc
        else acc
      | none => acc) []

/-- `mergeSimilarLineAnalyses(lineAnalyses, ...)` from src/index.js
lines 200-234, with the LLM call `analyzeWithAIDep(...)` embedded as its
`Except` outcome. -/
def mergeSimilarLineAnalyses (callOutcome : Except String String)
    (lineAnalyses : List LineFinding) : List MergedFinding :=
  if lineAnalyses = [] then []
  else if lineAnalyses.length = 1 then
    lineAnalyses.map fun l => ⟨[l.line], l.comment⟩
  else
    match callOutcome with
    | .error _ => lineAnalyses.map fun l => ⟨[l.line], l.comment⟩
    | .ok response =>
      if (parseMergedSections response).length > 0 then parseMergedSections response
      else lineAnalyses.map fun l => ⟨[l.line], l.comment⟩

/-!
## `analyzeWithAI` (src/index.js lines 89-122) and `generate` (src/llm.js)

`analyzeWithAI` creates an `AbortController`, arms a `setTimeout` that
calls `controller.abort()` after `REQUEST_TIMEOUT` ms (line 91), awaits
`llmClient.generate(message, { })` (line 96), and maps a caught
`AbortError` to the timeout message (lines 101-105).

The crucial data-flow fact of the source: `controller.signal` is never
passed to `generate` — the options literal at line 96 is empty, and every
`generate` implementation in src/llm.js reads only
`model` / `maxTokens` / `maxOutputTokens` / `temperature` / `topP` / `topK`
from its options and never an abort signal.  In JS, `abort()` can affect
only consumers of `controller.signal`, and there are none, so the firing
of the timer cannot influence the pending `generate` call or its outcome.

The embedding therefore models `generate` as an arbitrary outcome function
of exactly the data the source passes it (the message and the options
record), and carries the timer state as an explicit `timerFired` boolean:
whether `REQUEST_TIMEOUT` elapsed before `generate` settled.  That the
body cannot use `timerFired` is precisely the faithful rendering of the
unwired signal.
-/

/-- The option fields read by the `generate` implementations of
src/llm.js (lines 20-24, 47-51, 75-82).  There is no abort-signal field,
mirroring the source. -/
structure LLMGenerateOptions where
  model : Option String := none
  maxTokens : Option String := none
  maxOutputTokens : Option String := none
  temperature : Option String := none
  topP : Option String := none
  topK : Option String := none
deriving DecidableEq, Repr

/-- Outcome of an awaited `generate` call: resolved text, or a rejection
with an error name and message. -/
inductive LLMOutcome where
  | ok (text : String)
  | err (name msg : String)
deriving DecidableEq, Repr

/-- The options literal `{ }` passed to `generate` at src/index.js line 96. -/
def analyzeWithAIOptions : LLMGenerateOptions := {}

/-- Default value of the env-configurable `MAX_DIFF_LINES` (src/index.js line 52). -/
def MAX_DIFF_LINES : Nat := 500

/-- Default value of the env-configurable `MAX_CONTEXT_LINES` (src/index.js line 53). -/
def MAX_CONTEXT_LINES : Nat := 200

/-- Default value of the env-configurable `REQUEST_TIMEOUT` in milliseconds
(src/index.js line 54). -/
def REQUEST_TIMEOUT : Nat := 30000

/-- `truncateToLines(text, maxLines)` from src/index.js lines 124-129. -/
def truncateToLines (text : String) (maxLines : Nat) : String :=
  if text = "" then ""
  else if (linesOf text).length ≤ maxLines then text
  else String.mk (List.intercalate ['\n'] ((linesOf text).take maxLines)) ++
    "\n[... " ++ toString ((linesOf text).length - maxLines) ++ " more lines ...]"

/-- The prompt-message template of src/index.js line 95. -/
def buildReviewMessage (prompt codeSnippet filePath context : String) : String :=
  "# Code Review Task: " ++ filePath ++ "\n\n## Context\n" ++
    (if (if context = "" then "" else truncateToLines context MAX_CONTEXT_LINES) = ""
     then "No additional context provided."
     else truncateToLines context MAX_CONTEXT_LINES) ++
    "\n\n## Changes\n```diff\n" ++ truncateToLines codeSnippet MAX_DIFF_LINES ++
    "\n```\n\n## Instructions\n" ++ prompt ++
    "\n\n## Guidelines\n- Be specific and reference line numbers from the diff\n- Only report issues you\x27re certain about\n- Suggest concrete improvements when possible"

/-- The timeout-specific error message of src/index.js line 102. -/
def timeoutMessage : String :=
  "Analysis timed out. The diff might be too large or the service might be busy."

/-- The non-abort error mapping of src/index.js lines 106-109. -/
def analyzeErrorMessage (msg : String) : String :=
  if (if msg = "" then "Unknown error" else msg) ≠ "" ∧
      containsL (if msg = "" then "Unknown error" else msg).toList
        "Unexpected token".toList = true ∧
      containsL (if msg = "" then "Unknown error" else msg).toList
        "<".toList = true then
    "LLM service returned an invalid response. Check your credentials and network settings."
  else (if msg = "" then "Unknown error" else msg)

/-- `analyzeWithAI(prompt, codeSnippet, filePath, context)` from
src/index.js lines 89-122, over the outcome function of the single
`generate` call it awaits and the state of its timeout timer. -/
def analyzeWithAI (generate : String → LLMGenerateOptions → LLMOutcome)
    (prompt codeSnippet filePath context : String) (timerFired : Bool) :
    Except String String :=
  match generate (buildReviewMessage prompt codeSnippet filePath context)
      analyzeWithAIOptions with
  | .ok t => .ok t
  | .err name msg =>
    if name = "AbortError" then .error timeoutMessage
    else .error (analyzeErrorMessage msg)

/-!
## Decimal rendering of JS numbers

`${lines.join(', ')}` renders each line number in decimal, as JS
`Number.prototype.toString` does for integers.
-/

/-- A single decimal digit character. -/
def digitCh (n : Nat) : Char :=
  if n = 0 then '0' else if n = 1 then '1' else if n = 2 then '2'
  else if n = 3 then '3' else if n = 4 then '4' else if n = 5 then '5'
  else if n = 6 then '6' else if n = 7 then '7' else if n = 8 then '8'
  else '9'

/-- Decimal rendering of a natural number, with explicit fuel (one unit per
digit; the defining call passes `n + 1`, which always suffices since
`n / 10 < n` for `n ≥ 10`). -/
def natDecAux : Nat → Nat → List Char
  | 0, _ => []
  | fuel + 1, n =>
    if n < 10 then [digitCh n]
    else natDecAux fuel (n / 10) ++ [digitCh (n % 10)]

/-- Decimal rendering of a natural number. -/
def natDec (n : Nat) : List Char := natDecAux (n + 1) n

/-- Decimal rendering of a JS integer. -/
def intDec (n : Int) : List Char :=
  if n < 0 then '-' :: natDec (-n).toNat else natDec n.toNat

/-- `array.join(', ')` over rendered numbers. -/
def joinComma : List Int → List Char
  | [] => []
  | [x] => intDec x
  | x :: y :: t => intDec x ++ (',' :: ' ' :: joinComma (y :: t))

/-!
## The inline-comment posting loop of `processReviewCommand`
(src/index.js lines 679-703)

For each merged finding, the loop trims the comment, filters it through
`shouldPostInlineComment`, normalises it to a dedup key
(`trimmed.toLowerCase()`), skips it if the per-run `postedLineAnalyses`
set already holds the key, otherwise adds the key (synchronously, before
the awaited post — so the check-and-add is atomic in the single-threaded
event loop even under the bounded-concurrency fan-out) and posts an inline
comment with body `` `${trimmed}\n\n_Lines: ${lines.join(', ')}_` ``,
`line: lines[0]`, `side: 'RIGHT'`.

The fan-out interleaving is modelled by quantifying over an arbitrary
sequence of findings (any interleaving of the per-file loops is some
sequence, and the key set is shared across all of them); a posting call
that throws is caught and only drops that posted comment, modelled by the
`postSucceeds` flag.
-/

/-- A merged finding arriving at the posting loop, together with whether
its `createReviewComment` call succeeds. -/
structure PendingFinding where
  lines : List Int
  comment : String
  postSucceeds : Bool

/-- A successfully posted inline review comment. -/
structure PostedComment where
  key : List Char
  body : List Char
  line : Int
  lines : List Int
  side : String

/-- The body suffix `\n\n_Lines: ${lines.join(', ')}_`. -/
def linesSfx (lines : List Int) : List Char :=
  '\n' :: '\n' :: ("_Lines: ".toList ++ joinComma lines ++ ['_'])

/-- The posting loop, threading the `postedLineAnalyses` key set. -/
def postFold : List PendingFinding → List (List Char) → List PostedComment
  | [], _ => []
  | f :: rest, seen =>
    if shouldPostInlineComment (String.mk (trimL f.comment.toList)) = false then
      postFold rest seen
    else if (lowerL (trimL f.comment.toList)) ∈ seen then
      postFold rest seen
    else if f.postSucceeds then
      { key := lowerL (trimL f.comment.toList),
        body := trimL f.comment.toList ++ linesSfx f.lines,
        line := f.lines.getD 0 0,
        lines := f.lines,
        side := "RIGHT" } ::
        postFold rest (lowerL (trimL f.comment.toList) :: seen)
    else postFold rest (lowerL (trimL f.comment.toList) :: seen)

/-- All inline comments posted during one run, in posting order, for a given
interleaved sequence of surviving merged findings. -/
def processReviewPostedComments (findings : List PendingFinding) : List PostedComment :=
  postFold findings []

/-!
## `generateContextDiff` (src/unnamed/part_011 lines 377-408; the copy in
src/index.js lines 449-468 omits the final header rewrite)

Slices a window of both files around the changed region, diffs the two
windows with `createTwoFilesPatch` (the external `diff` package, embedded
as the function argument `patchFn` — the theorems below hold for every
behaviour of it), and rewrites every hunk header of the window diff by
adding the window offset `start` to its two start numbers, preserving the
length fields.
-/

/-- `Math.min(...l)` for a non-empty list (`d` is returned for `[]`, a case
the callers guard). -/
def minList (l : List Int) (d : Int) : Int :=
  match l with
  | [] => d
  | x :: xs => xs.foldl min x

/-- `Math.max(...l)` for a non-empty list. -/
def maxList (l : List Int) (d : Int) : Int :=
  match l with
  | [] => d
  | x :: xs => xs.foldl max x

/-- The window bounds of `generateContextDiff`
(src/unnamed/part_011 lines 384-390): 0-based inclusive `start` and `end`. -/
def ctxWindow (baseContent headContent : String) (bl hl : List Int) : Int × Int :=
  let baseArr := linesOf baseContent
  let headArr := linesOf headContent
  let minBase : Int := if bl ≠ [] then max 1 (minList bl 0) else (baseArr.length : Int)
  let maxBase : Int := if bl ≠ [] then maxList bl 0 else 1
  let minHead : Int := if hl ≠ [] then max 1 (minList hl 0) else (headArr.length : Int)
  let maxHead : Int := if hl ≠ [] then maxList hl 0 else 1
  (max 0 (min minBase minHead - 1 - 10),
   min ((max baseArr.length headArr.length : Int) - 1) (max maxBase maxHead - 1 + 10))

/-- The window offset added to hunk-header start numbers
(`const offset = start` at src/unnamed/part_011 line 398).  `Math.max(0,·)`
makes it a natural number. -/
def windowStart (baseContent headContent : String) (bl hl : List Int) : Nat :=
  (ctxWindow baseContent headContent bl hl).1.toNat

/-- `arr.slice(s, e).join('\n')` for `0 ≤ s ≤ e` (the computed window
bounds are non-negative for 1-based line numbers). -/
def sliceJoin (arr : List (List Char)) (s : Nat) (e : Int) : List Char :=
  List.intercalate ['\n'] ((arr.take e.toNat).drop s)

/-- The base-side window snippet of `generateContextDiff`. -/
def baseWindow (baseContent headContent : String) (bl hl : List Int) : String :=
  String.mk (sliceJoin (linesOf baseContent)
    (windowStart baseContent headContent bl hl)
    ((ctxWindow baseContent headContent bl hl).2 + 1))

/-- The head-side window snippet of `generateContextDiff`. -/
def headWindow (baseContent headContent : String) (bl hl : List Int) : String :=
  String.mk (sliceJoin (linesOf headContent)
    (windowStart baseContent headContent bl hl)
    ((ctxWindow baseContent headContent bl hl).2 + 1))

/-- Match a literal at the front of the input, returning the remainder. -/
def dropLit : List Char → List Char → Option (List Char)
  | [], l => some l
  | _ :: _, [] => none
  | a :: as, b :: bs => if a = b then dropLit as bs else none

/-- One attempt, at the current position, to match the header-rewriting
regex `/@@ -(\d+),?(\d*) \+(\d+),?(\d*) @@/` of src/unnamed/part_011
line 399, returning the four captured groups and the remainder after the
match.  The two number pairs reuse `parseNumPair` (same backtracking
analysis), with terminators `" +"` and `" @@"`. -/
def tryHeader (xs : List Char) :
    Option (Nat × Option (List Char) × Nat × Option (List Char) × List Char) :=
  (dropLit "@@ -".toList xs).bind fun r0 =>
    (parseNumPair (' ' :: '+' :: []) r0).bind fun q1 =>
      (parseNumPair (' ' :: '@' :: '@' :: []) q1.2.2).bind fun q2 =>
        some (q1.1, q1.2.1, q2.1, q2.2.1, q2.2.2)

/-- The string of an optional captured group (a group that did not
participate still captures the empty string here, as `,?(\d*)` does). -/
def optStr : Option (List Char) → List Char
  | none => []
  | some d => d

/-- The replacement template
`` `@@ -${oldStart}${oldRange} +${newStart}${newRange} @@` `` with
`oldRange = b ? ',${b}' : ''` (src/unnamed/part_011 lines 399-404):
an empty captured length group drops the comma. -/
def renderRepl (off a : Nat) (b : Option (List Char)) (c : Nat)
    (d : Option (List Char)) : List Char :=
  "@@ -".toList ++ natDec (a + off) ++
    (if optStr b = [] then [] else ',' :: optStr b) ++
    (' ' :: '+' :: []) ++ natDec (c + off) ++
    (if optStr d = [] then [] else ',' :: optStr d) ++
    (' ' :: '@' :: '@' :: [])

/-- A rendered hunk-header line `@@ -A[,B] +C[,D] @@`. -/
def renderHeaderL (a : Nat) (b : Option (List Char)) (c : Nat)
    (d : Option (List Char)) : List Char :=
  "@@ -".toList ++ natDec a ++
    (if optStr b = [] then [] else ',' :: optStr b) ++
    (' ' :: '+' :: []) ++ natDec c ++
    (if optStr d = [] then [] else ',' :: optStr d) ++
    (' ' :: '@' :: '@' :: [])

/-- A well-formed optional length group: absent, or a non-empty digit run. -/
def optDigits : Option (List Char) → Prop
  | none => True
  | some b => b ≠ [] ∧ ∀ c ∈ b, isDigitCh c = true

/-- The global replace `rawDiff.replace(regex, fn)` of src/unnamed/part_011
lines 399-405: scan left to right, rewriting each non-overlapping match and
copying other characters.  Fuel counts remaining characters; each step
consumes at least one, so `replaceScan` below always has enough. -/
def replaceScanAux (off : Nat) : Nat → List Char → List Char
  | 0, l => l
  | fuel + 1, l =>
    match l with
    | [] => []
    | x :: t =>
      match tryHeader (x :: t) with
      | some (a, b, c, d, rest) =>
        renderRepl off a b c d ++ replaceScanAux off fuel rest
      | none => x :: replaceScanAux off fuel t

/-- The global header-rewriting replace with sufficient fuel. -/
def replaceScan (off : Nat) (l : List Char) : List Char :=
  replaceScanAux off l.length l

/-- `generateContextDiff(baseContent, headContent, baseLinesNums,
headLinesNums, fileName)` from src/unnamed/part_011 lines 377-408.
`patchFn` embeds the external
`createTwoFilesPatch(fileName, fileName, ·, ·, '', '', {context: 10})`
call; `fileName` is carried for signature fidelity (it only flows into that
external call). -/
def generateContextDiff (patchFn : String → String → String)
    (baseContent headContent : String) (bl hl : List Int)
    (fileName : String) : String :=
  if bl = [] ∧ hl = [] then patchFn baseContent headContent
  else
    String.mk (replaceScan (windowStart baseContent headContent bl hl)
      (patchFn (baseWindow baseContent headContent bl hl)
        (headWindow baseContent headContent bl hl)).toList)

/-!
## `processReviewCommand` error handling (src/index.js lines 590-769)

The entire review pipeline runs inside one big `try` (lines 601-759); the
top-level `catch` (lines 760-768) posts a generic error body (updating the
progress comment when one exists, creating a new comment otherwise), and
that posting is itself guarded by an inner `try` whose `catch` only logs
(line 767).  The awaited external calls are embedded as `Except` outcomes;
stages with a local `try/catch` (manager plan, lines 636-641, and final
summary, lines 724-729) absorb their failure and continue, which the model
states by both constructors continuing identically.
-/

/-- A terminal state transition of the progress comment: the full review
body (src/index.js line 758) or the generic error body (lines 765-766). -/
inductive Transition where
  | reviewBody
  | errorBody
deriving DecidableEq, Repr

/-- Outcomes of the awaited external calls of one `processReviewCommand`
run, in program order.  `hasInitialComment` is whether an initial progress
comment was passed in (line 602); `createInitial` is the
`octokit.issues.createComment` for the progress comment (line 606);
`commitMessages` is `getCommitMessages` (line 615); `fileSteps` are the
sequentially awaited `processFileDiffDep` calls (line 619), a `.error`
modelling a rejected promise; `managerAnalysis` is the locally caught
manager-plan `analyzeWithAIDep` (line 637); `fanoutTasks` are the
`Promise.all` tasks (lines 643-719), a task being `.error` exactly when
something NOT locally caught inside it throws (the `try/catch` blocks at
lines 653-657, 672-676 and 687-701 absorb the analyze and inline-post
failures); `finalSummaryAnalysis` is the locally caught final-summary call
(line 725); `finalUpdate` is the review-body `updateComment` (line 758);
`errorPost` is the error-body post of the top-level catch (line 765 when a
progress comment exists, line 766 otherwise). -/
structure ReviewEnv where
  hasInitialComment : Bool
  createInitial : Except String Unit
  commitMessages : Except String Unit
  fileSteps : List (Except String Unit)
  managerAnalysis : Except String Unit
  fanoutTasks : List (Except String Unit)
  finalSummaryAnalysis : Except String Unit
  finalUpdate : Except String Unit
  errorPost : Except String Unit

/-- First rejection among sequentially awaited calls. -/
def firstErr : List (Except String Unit) → Option String
  | [] => none
  | Except.ok _ :: rest => firstErr rest
  | Except.error e :: _ => some e

/-- The top-level catch of `processReviewCommand` (src/index.js lines
760-768): posts the generic error body and swallows a failure of that post
(line 767).  It never rethrows, and produces one `errorBody` transition
exactly when the post succeeds. -/
def runCatch (env : ReviewEnv) : Option String × List Transition :=
  match env.errorPost with
  | Except.ok _ => (none, [Transition.errorBody])
  | Except.error _ => (none, [])

/-- The tail of the `try` body after the fan-out: final summary (caught
locally) already handled by the caller; the review-body update of line 758
either succeeds or throws into the top-level catch. -/
def reviewAfterFanout (env : ReviewEnv) : Option String × List Transition :=
  match env.finalUpdate with
  | Except.error _ => runCatch env
  | Except.ok _ => (none, [Transition.reviewBody])

/-- The `try` body from the fan-out on.  A final-summary failure is caught
locally (lines 724-729) and replaced by a fallback message, so both
outcomes continue to the final update. -/
def reviewAfterManager (env : ReviewEnv) : Option String × List Transition :=
  match firstErr env.fanoutTasks with
  | some _ => runCatch env
  | none =>
    match env.finalSummaryAnalysis with
    | Except.ok _ => reviewAfterFanout env
    | Except.error _ => reviewAfterFanout env

/-- `processReviewCommand` (src/index.js lines 590-769) reduced to its
exception flow: the propagated exception (if any) and the terminal comment
transitions of the run, for given outcomes of the external calls.  A
manager-plan failure is caught locally (lines 636-641, falling back to the
empty plan), so both outcomes continue identically. -/
def processReviewCommandRun (env : ReviewEnv) :
    Option String × List Transition :=
  match (if env.hasInitialComment then Except.ok () else env.createInitial :
      Except String Unit) with
  | Except.error _ => runCatch env
  | Except.ok _ =>
    match env.commitMessages with
    | Except.error _ => runCatch env
    | Except.ok _ =>
      match firstErr env.fileSteps with
      | some _ => runCatch env
      | none =>
        match env.managerAnalysis with
        | Except.ok _ => reviewAfterManager env
        | Except.error _ => reviewAfterManager env

/-!
## `processFileDiff` (src/index.js lines 470-539)

Builds the per-file review input.  The whole body runs inside a `try`
(lines 487-532); the `catch` (lines 533-538) stamps
`Processing error: <message>` into the partially built record and returns
it, so the function never throws.  The awaited external calls
(`getRepoInstructions`, `getFileContent` for head and base) are embedded as
`Except` outcomes; the external `createTwoFilesPatch` and the pure,
never-throwing `summarizePackageJsonChanges` (its own `try` returns the
empty string on bad JSON, lines 319-344) are function parameters.
-/

/-- The default `MAX_DIFF_LENGTH` (src/index.js line 51). -/
def MAX_DIFF_LENGTH : Nat := 8000

/-- The alternatives of the binary-extension regex of src/index.js
lines 488 and 611, in source order. -/
def binaryExtensions : List String :=
  ["png", "jpg", "jpeg", "gif", "ico", "svg", "pdf", "zip", "tar.gz",
   "tgz", "gz", "7z", "rar", "exe", "dll", "so", "a", "o", "pyc", "pyo",
   "pyd", "class", "jar", "war", "ear", "bin", "dat", "db", "sqlite",
   "sqlite3"]

/-- JS `String.prototype.endsWith` on character lists. -/
def endsWithL (l sfx : List Char) : Bool := leadsWith sfx.reverse l.reverse

/-- `filename.match(/\.(png|...|sqlite3)$/i)` (src/index.js line 488):
with the end anchor and a leading literal dot, the test succeeds exactly
when the lowercased filename ends in a dot followed by one of the
(lowercase) alternatives. -/
def isBinaryFilename (name : String) : Bool :=
  binaryExtensions.any fun ext =>
    endsWithL (lowerL name.toList) ('.' :: ext.toList)

/-- The `MAX_DIFF_LENGTH` truncation applied to diffs (src/index.js
lines 494, 504 and 521-523): `substring(0, MAX_DIFF_LENGTH)` plus a
truncation marker. -/
def truncDiff (diff : String) : String :=
  if diff.length > MAX_DIFF_LENGTH then
    String.mk (diff.toList.take MAX_DIFF_LENGTH ++ "\n[...truncated...]".toList)
  else diff

/-- `n.toString().padStart(4)`. -/
def padStart4 (s : List Char) : List Char :=
  List.replicate (4 - s.length) ' ' ++ s

/-- The output loop of `getSurroundingLines` (src/index.js lines 164-173):
walks the sorted included 0-based indices, inserting a `...` separator at
gaps, and renders each line as `<prefix><padded 1-based number>: <text>`
(prefix `> ` for a changed line, two spaces otherwise). -/
def surroundingGo (lineSet : List Int) (lines : List (List Char)) :
    List Int → Int → List (List Char) → List (List Char)
  | [], _, acc => acc.reverse
  | idx :: rest, lastLine, acc =>
    let gap : List (List Char) :=
      if idx > lastLine + 1 ∧ lastLine ≠ -2 then ["...".toList] else []
    let lineNum := idx + 1
    let lineContent := lines.getD idx.toNat []
    let linePfx : List Char := if lineNum ∈ lineSet then "> ".toList
      else "  ".toList
    surroundingGo lineSet lines rest idx
      ((linePfx ++ padStart4 (natDec lineNum.toNat) ++ ": ".toList ++
        lineContent) :: (gap ++ acc))

/-- `getSurroundingLines(content, lineNumbers, contextLines)` from
src/index.js lines 154-175: collects the 0-based indices of every line
within `contextLines` of a changed line (clamped to the file), dedups and
sorts them (`Array.from(new Set(...)).sort`), and renders them with gap
markers. -/
def getSurroundingLines (content : String) (lineNumbers : List Int)
    (contextLines : Int) : String :=
  if content = "" then ""
  else
    let lines := linesOf content
    let included := jsSetSort (lineNumbers.flatMap fun lineNum =>
      let s := max 1 (lineNum - contextLines)
      let e := min (lines.length : Int) (lineNum + contextLines)
      (List.range' 0 (e - s + 1).toNat).map fun k => s + (k : Int) - 1)
    String.mk (List.intercalate ['\n']
      (surroundingGo lineNumbers lines included (-2) []))

/-- `generateContextDiff` as written in src/index.js lines 449-468: the
same windowing as the src/unnamed/part_011 variant but WITHOUT the final
hunk-header rewrite.  `patchFn` embeds the external
`createTwoFilesPatch(fileName, fileName, ·, ·, '', '', {context: 10})`. -/
def generateContextDiffIdx (patchFn : String → String → String)
    (baseContent headContent : String) (bl hl : List Int)
    (fileName : String) : String :=
  if bl = [] ∧ hl = [] then patchFn baseContent headContent
  else patchFn (baseWindow baseContent headContent bl hl)
    (headWindow baseContent headContent bl hl)

/-- `pr.body.replace(/\n/g, '\n> ')` (src/index.js line 529). -/
def quoteNl : List Char → List Char
  | [] => []
  | c :: t => if c = '\n' then '\n' :: '>' :: ' ' :: quoteNl t
      else c :: quoteNl t

/-- The fields of a PR file descriptor read by `processFileDiff`. -/
structure PRFile where
  filename : String
  status : String
  patch : Option String
  changes : Nat
  additions : Nat
  deletions : Nat

/-- The `fileInfo` record built by `processFileDiff`
(src/index.js lines 473-486; the wall-clock `processingTime` field is not
modelled). -/
structure FileInfo where
  filename : String
  status : String
  changes : Nat
  additions : Nat
  deletions : Nat
  error : Option String
  diff : String
  context : String
  changedLines : List Int
  headContent : String
  instructions : String

/-- Outcomes of the awaited external calls of one `processFileDiff` run:
`getRepoInstructions` (line 491) and `getFileContent` at the head sha
(lines 495/514) and at the base sha (lines 505/513). -/
structure FileDiffEnv where
  repoInstructions : Except String String
  headFileContent : Except String String
  baseFileContent : Except String String

/-- The PR-description suffix of the context (src/index.js line 529);
appending the empty string embeds the skipped falsy case. -/
def finishFileInfo (prBody : Option String) (fi : FileInfo) : FileInfo :=
  { fi with context := fi.context ++
      (match prBody with
       | none => ""
       | some b =>
         if b = "" then ""
         else "\n\n### PR Description/Context:\n> " ++
           String.mk (quoteNl b.toList)) }

/-- `sha.slice(0, 7)` (src/index.js line 517). -/
def shaSlice (s : String) : String := String.mk (s.toList.take 7)

/-- Does `expandLineNumbersToBlock(content, lineNumbers)` throw a
`TypeError` in the source (src/index.js lines 380-422)?  For a run of
1-based changed lines `[first, last]`, `expandRange(first-1, last-1)`
dereferences `lines[i].match` on an out-of-range index exactly when:
in the brace path, the up-loop starts at `first-1 ≥ lines.length`
(line 390-391) or — the up-loop being skipped for a negative start — the
down-loop starts at `last-1 < 0 < lines.length` (lines 399-400); in the
indentation path, the very first `lines[startIdx].match(/^\s*/)`
(line 409) has `first-1` outside `[0, lines.length)`.  All other loop
accesses are bounds-guarded.  Reachable, e.g., when the fetched content is
the `[File not found or deleted]` placeholder (one line) while the patch
names deeper lines — every renamed-with-changes file.  The early return
for empty content or no line numbers (line 381) never throws. -/
def expandThrows (content : String) (lineNumbers : List Int) : Bool :=
  if content = "" ∨ lineNumbers = [] then false
  else
    let lines := linesOf content
    (groupRuns (jsSetSort lineNumbers)).any fun p =>
      if hasBracesStr content then
        decide ((lines.length : Int) < p.1) || decide (p.2 ≤ 0)
      else
        decide (p.1 ≤ 0) || decide ((lines.length : Int) < p.1)

/-- The `try` body of `processFileDiff` after the binary check
(src/index.js lines 491-532), threading the partially built record:
a `.error` result carries the thrown message together with the record as
mutated so far, exactly what the `catch` of lines 533-538 sees.  The
package-json summary conditional appends the empty string in the skipped
cases.  `typeErr` is the engine-supplied message of the `TypeError` thrown
by the `expandLineNumbersToBlock` calls of lines 515-516 on out-of-range
changed lines (see `expandThrows`); at that point only `instructions` has
been written, so the partial record is `fi1`. -/
def processFileDiffSteps (patchFn : String → String → String)
    (pkgSummary : String → String → String) (typeErr : String)
    (env : FileDiffEnv)
    (file : PRFile) (prBody : Option String) (baseSha headSha : String)
    (fi0 : FileInfo) : Except (String × FileInfo) FileInfo :=
  match env.repoInstructions with
  | Except.error m => Except.error (m, fi0)
  | Except.ok instr =>
    let fi1 := { fi0 with instructions := instr }
    let diff := file.patch.getD ""
    if file.status = "added" then
      let fi2 := { fi1 with diff := truncDiff diff }
      match env.headFileContent with
      | Except.error m => Except.error (m, fi2)
      | Except.ok content =>
        let fi3 := { fi2 with
          context := "## New File: " ++ file.filename ++
            "\n\nFile content (truncated if large):\n```\n" ++ content ++
            "\n```" ++
            (if endsWithL file.filename.toList "package.json".toList ∧
                pkgSummary "" content ≠ "" then
              "\n\n### Dependency Changes\n" ++ pkgSummary "" content
            else ""),
          changedLines := (getChangedLineNumbers diff).headLines,
          headContent := content }
        Except.ok (finishFileInfo prBody fi3)
    else if file.status = "removed" then
      let fi2 := { fi1 with diff := truncDiff diff }
      match env.baseFileContent with
      | Except.error m => Except.error (m, fi2)
      | Except.ok content =>
        let fi3 := { fi2 with
          context := "## Deleted File: " ++ file.filename ++
            "\n\nOriginal file content (first 100 lines):\n```\n" ++
            content ++ "\n```" ++
            (if endsWithL file.filename.toList "package.json".toList ∧
                pkgSummary content "" ≠ "" then
              "\n\n### Dependency Changes\n" ++ pkgSummary content ""
            else "") }
        Except.ok (finishFileInfo prBody fi3)
    else if file.status = "modified" ∨ file.status = "renamed" then
      match env.baseFileContent with
      | Except.error m => Except.error (m, fi1)
      | Except.ok baseContent =>
        match env.headFileContent with
        | Except.error m => Except.error (m, fi1)
        | Except.ok headContent =>
          let nums := getChangedLineNumbers diff
          if expandThrows headContent nums.headLines then
            Except.error (typeErr, fi1)
          else if expandThrows baseContent nums.baseLines then
            Except.error (typeErr, fi1)
          else
          let expandedHead := expandLineNumbersToBlock headContent nums.headLines
          let expandedBase := expandLineNumbersToBlock baseContent nums.baseLines
          let fi2 := { fi1 with
            context := "## Modified File: " ++ file.filename ++
              "\n\n### Changed lines with context (10 lines before/after):" ++
              "\n\n#### Base (" ++ shaSlice baseSha ++ "):\n```\n" ++
              getSurroundingLines baseContent expandedBase 10 ++
              "\n```\n\n#### Head (" ++ shaSlice headSha ++ "):\n```\n" ++
              getSurroundingLines headContent expandedHead 10 ++ "\n```" ++
              (if endsWithL file.filename.toList "package.json".toList ∧
                  pkgSummary baseContent headContent ≠ "" then
                "\n\n### Dependency Changes\n" ++
                  pkgSummary baseContent headContent
              else ""),
            changedLines := nums.headLines,
            headContent := headContent,
            diff := truncDiff (generateContextDiffIdx patchFn baseContent
              headContent expandedBase expandedHead file.filename) }
          Except.ok (finishFileInfo prBody fi2)
    else Except.ok (finishFileInfo prBody fi1)

/-- `processFileDiff(octokit, owner, repo, file, pr, logContext)` from
src/index.js lines 470-539: initialises the record from the file
descriptor, returns early with `Binary file - skipped` on a
binary-extension filename (line 488-490), and otherwise runs the body with
the `catch` of lines 533-538 turning a thrown message into the
`Processing error: ` field on the partial record. -/
def processFileDiffModel (patchFn : String → String → String)
    (pkgSummary : String → String → String) (typeErr : String)
    (env : FileDiffEnv)
    (file : PRFile) (prBody : Option String)
    (baseSha headSha : String) : FileInfo :=
  let fi0 : FileInfo :=
    { filename := file.filename, status := file.status,
      changes := file.changes, additions := file.additions,
      deletions := file.deletions, error := none, diff := "",
      context := "", changedLines := [], headContent := "",
      instructions := "" }
  if isBinaryFilename file.filename then
    { fi0 with error := some "Binary file - skipped" }
  else
    match processFileDiffSteps patchFn pkgSummary typeErr env file prBody
        baseSha headSha fi0 with
    | Except.ok r => r
    | Except.error (m, r) => { r with error := some ("Processing error: " ++ m) }

/-- The rejection message of an awaited call, if any. -/
def exErr : Except String String → Option String
  | Except.error m => some m
  | Except.ok _ => none

/-- Left-biased choice of first failure. -/
def optOr (a b : Option String) : Option String :=
  match a with
  | some m => some m
  | none => b

/-- The `TypeError` (message `typeErr`) of the modified/renamed branch, if
one is thrown: the head-side expand of line 515 first, then the base-side
expand of line 516, and only once both contents have been fetched. -/
def expandThrowErr (typeErr : String) (env : FileDiffEnv) (file : PRFile) :
    Option String :=
  match env.baseFileContent, env.headFileContent with
  | Except.ok bc, Except.ok hc =>
    if expandThrows hc (getChangedLineNumbers (file.patch.getD "")).headLines
      then some typeErr
    else if expandThrows bc
        (getChangedLineNumbers (file.patch.getD "")).baseLines then
      some typeErr
    else none
  | _, _ => none

/-- The message of the first exception of the `processFileDiff` body —
an awaited call rejecting, or the `TypeError` of the line 515-516 expands —
per status branch, in program order (none when the run completes). -/
def fileDiffFirstErr (typeErr : String) (env : FileDiffEnv) (file : PRFile) :
    Option String :=
  optOr (exErr env.repoInstructions)
    (if file.status = "added" then exErr env.headFileContent
    else if file.status = "removed" then exErr env.baseFileContent
    else if file.status = "modified" ∨ file.status = "renamed" then
      optOr (exErr env.baseFileContent)
        (optOr (exErr env.headFileContent) (expandThrowErr typeErr env file))
    else none)

/-- `splitCh` never returns the empty list. -/
theorem splitCh_ne_nil (c : Char) (l : List Char) : splitCh c l ≠ [] := by
  cases l with
  | nil => simp [splitCh]
  | cons x t =>
    simp only [splitCh]
    cases h : splitCh c t with
    | nil => simp
    | cons h r => by_cases hx : x = c <;> simp [hx]

/-- A line starting with `+` does not start with `-` or `@@`, and so on:
distinct single leading characters are mutually exclusive. -/
theorem leadsWith_first_char {a : Char} {t : List Char} {l : List Char}
    (h : leadsWith (a :: t) l = true) : ∃ r, l = a :: r := by
  cases l with
  | nil => simp [leadsWith] at h
  | cons c r =>
    simp only [leadsWith, Bool.and_eq_true, decide_eq_true_eq] at h
    exact ⟨r, by rw [h.1]⟩

theorem changedLinesLoop_lengths (lines : List (List Char)) :
    ∀ ch cb hAcc bAcc,
      (changedLinesLoop lines ch cb hAcc bAcc).headLines.length =
        (lines.countP (isAddedLine ·)) + hAcc.length ∧
      (changedLinesLoop lines ch cb hAcc bAcc).baseLines.length =
        (lines.countP (isRemovedLine ·)) + bAcc.length := by
  induction lines with
  | nil => intro ch cb hAcc bAcc; simp [changedLinesLoop]
  | cons line rest ih =>
    intro ch cb hAcc bAcc
    by_cases hat : leadsWith ['@', '@'] line
    · have hadd : isAddedLine line = false := by simp [isAddedLine, hat]
      have hrem : isRemovedLine line = false := by simp [isRemovedLine, hat]
      simp only [changedLinesLoop]
      rw [if_pos hat]
      cases hf : findHunkNums line with
      | some p =>
        cases p with
        | mk a c =>
          simpa [List.countP_cons, hadd, hrem] using ih _ _ hAcc bAcc
      | none => simpa [List.countP_cons, hadd, hrem] using ih _ _ hAcc bAcc
    · by_cases hp : leadsWith ['+'] line ∧ ¬leadsWith ['+', '+', '+'] line
      · have hadd : isAddedLine line = true := by
          have h2 : leadsWith ['+', '+', '+'] line = false := eq_false_of_ne_true hp.2
          simp [isAddedLine, hat, hp.1, h2]
        have hrem : isRemovedLine line = false := by
          obtain ⟨r, hr⟩ := leadsWith_first_char hp.1
          subst hr
          simp [isRemovedLine, leadsWith]
        simp only [changedLinesLoop]
        rw [if_neg hat, if_pos hp]
        have := ih (ch + 1) cb ((ch + 1) :: hAcc) bAcc
        simp only [List.length_cons] at this
        refine ⟨?_, ?_⟩
        · rw [this.1]; simp [List.countP_cons, hadd]; omega
        · rw [this.2]; simp [List.countP_cons, hrem]
      · by_cases hm : leadsWith ['-'] line ∧ ¬leadsWith ['-', '-', '-'] line
        · have hadd : isAddedLine line = false := by
            obtain ⟨r, hr⟩ := leadsWith_first_char hm.1
            subst hr
            simp [isAddedLine, leadsWith]
          have hrem : isRemovedLine line = true := by
            have h2 : leadsWith ['-', '-', '-'] line = false := eq_false_of_ne_true hm.2
            simp [isRemovedLine, hat, hm.1, h2]
          simp only [changedLinesLoop]
          rw [if_neg hat, if_neg hp, if_pos hm]
          have := ih ch (cb + 1) hAcc ((cb + 1) :: bAcc)
          simp only [List.length_cons] at this
          refine ⟨?_, ?_⟩
          · rw [this.1]; simp [List.countP_cons, hadd]
          · rw [this.2]; simp [List.countP_cons, hrem]; omega
        · have hadd : isAddedLine line = false := by
            by_cases h1 : leadsWith ['+'] line
            · have h3 : leadsWith ['+', '+', '+'] line := by
                by_contra hc; exact hp ⟨h1, hc⟩
              simp [isAddedLine, h3]
            · simp [isAddedLine, h1]
          have hrem : isRemovedLine line = false := by
            by_cases h1 : leadsWith ['-'] line
            · have h3 : leadsWith ['-', '-', '-'] line := by
                by_contra hc; exact hm ⟨h1, hc⟩
              simp [isRemovedLine, h3]
            · simp [isRemovedLine, h1]
          simp only [changedLinesLoop]
          rw [if_neg hat, if_neg hp, if_neg hm]
          simpa [List.countP_cons, hadd, hrem] using ih (ch + 1) (cb + 1) hAcc bAcc

/-- C3: `getChangedLineNumbers` scans the patch sequentially, recording
`currentHead+1` for every `+` line (not `+++`) and `currentBase+1` for every
`-` line (not `---`); on the sample patch
`@@ -1,5 +1,5 @@\n A1\n+A5\n A2\n A3\n A4\n-A5\n` it yields
`{headLines: [2], baseLines: [5]}`, and on every patch the number of
recorded head (resp. base) lines equals the number of added (resp. removed)
lines of the patch. -/
theorem getChangedLineNumbers_spec :
    getChangedLineNumbers "@@ -1,5 +1,5 @@\n A1\n+A5\n A2\n A3\n A4\n-A5\n" =
      ⟨[2], [5]⟩ ∧
    ∀ diff : String,
      (getChangedLineNumbers diff).headLines.length =
        (linesOf diff).countP (isAddedLine ·) ∧
      (getChangedLineNumbers diff).baseLines.length =
        (linesOf diff).countP (isRemovedLine ·) := by
  refine ⟨by decide, fun diff => ?_⟩
  by_cases h : diff = ""
  · subst h; constructor <;> decide
  · have := changedLinesLoop_lengths (linesOf diff) 0 0 [] []
    simp only [List.length_nil, Nat.add_zero] at this
    simpa [getChangedLineNumbers, h] using this

/-- C7: `shouldPostInlineComment` returns `false` on the empty string and on
"No issues found here.", `true` on "Consider renaming this variable.", and in
general returns `true` exactly when the input is non-empty and its lowercasing
contains none of the fixed skip phrases. -/
theorem shouldPostInlineComment_spec :
    shouldPostInlineComment "" = false ∧
    shouldPostInlineComment "No issues found here." = false ∧
    shouldPostInlineComment "Consider renaming this variable." = true ∧
    ∀ s : String, shouldPostInlineComment s = true ↔
      (s ≠ "" ∧ ∀ p ∈ skipPhrases, containsL (lowerL s.toList) p = false) := by
  refine ⟨by decide, by decide, by decide, fun s => ?_⟩
  by_cases h : s = ""
  · subst h; simp [shouldPostInlineComment]
  · simp [shouldPostInlineComment, h, List.any_eq_false]

/-- Closed instance of `shouldPostInlineComment_spec` at a concrete input. -/
theorem shouldPostInlineComment_spec_witness :
    shouldPostInlineComment "Consider a rename here." = true ↔
      (("Consider a rename here." : String) ≠ "" ∧
        ∀ p ∈ skipPhrases,
          containsL (lowerL ("Consider a rename here." : String).toList) p = false) :=
  shouldPostInlineComment_spec.2.2.2 "Consider a rename here."

/-- `jsSetSort` is strictly ascending. -/
theorem jsSetSort_sorted (l : List Int) : (jsSetSort l).Sorted (· < ·) :=
  (List.sorted_insertionSort _ _).lt_of_le
    (((List.perm_insertionSort _ _).nodup_iff).mpr (List.nodup_dedup l))

/-- Membership in `jsSetSort`. -/
theorem mem_jsSetSort (l : List Int) {n : Int} : n ∈ jsSetSort l ↔ n ∈ l :=
  ((List.perm_insertionSort _ _).mem_iff).trans List.mem_dedup

/-- `jsSetSort` fixes strictly ascending lists. -/
theorem jsSetSort_eq_self {l : List Int} (h : l.Sorted (· < ·)) :
    jsSetSort l = l := by
  rw [jsSetSort, List.dedup_eq_self.mpr h.nodup]
  exact h.le_of_lt.insertionSort_eq

theorem braceUp_le (lines : List (List Char)) (orig : Nat) :
    ∀ fuel i depth, braceUp lines orig fuel i depth ≤ max i orig := by
  intro fuel
  induction fuel with
  | zero => intro i depth; simp [braceUp]
  | succ f ih =>
    intro i depth
    simp only [braceUp]
    split
    · exact le_max_left _ _
    · split
      · exact le_max_right _ _
      · exact le_trans (ih (i - 1) _) (max_le_max (Nat.sub_le i 1) le_rfl)

theorem braceDown_ge (lines : List (List Char)) (orig : Nat) :
    ∀ fuel i depth, min i orig ≤ braceDown lines orig fuel i depth := by
  intro fuel
  induction fuel with
  | zero => intro i depth; simp [braceDown]
  | succ f ih =>
    intro i depth
    simp only [braceDown]
    split
    · split
      · exact min_le_left _ _
      · exact le_trans (min_le_min (Nat.le_succ i) le_rfl) (ih (i + 1) _)
    · exact min_le_right _ _

theorem indentUp_le (lines : List (List Char)) (base orig : Nat) :
    ∀ fuel i, indentUp lines base orig fuel i ≤ max (i + 1) orig := by
  intro fuel
  induction fuel with
  | zero => intro i; simp [indentUp]
  | succ f ih =>
    intro i
    simp only [indentUp]
    split
    · split
      · exact le_max_right _ _
      · refine le_trans (ih (i - 1)) (max_le_max ?_ le_rfl)
        omega
    · split
      · exact le_max_left _ _
      · split
        · exact le_max_right _ _
        · refine le_trans (ih (i - 1)) (max_le_max ?_ le_rfl)
          omega

theorem indentDown_ge (lines : List (List Char)) (base orig : Nat) :
    ∀ fuel i, min (i - 1) orig ≤ indentDown lines base orig fuel i := by
  intro fuel
  induction fuel with
  | zero => intro i; simp [indentDown]
  | succ f ih =>
    intro i
    simp only [indentDown]
    split
    · split
      · refine le_trans (min_le_min ?_ le_rfl) (ih (i + 1))
        omega
      · split
        · exact min_le_left _ _
        · refine le_trans (min_le_min ?_ le_rfl) (ih (i + 1))
          omega
    · exact min_le_right _ _

/-- `expandRange` always contains the original range. -/
theorem expandRange_covers (content : String) (lines : List (List Char))
    (s e : Nat) :
    (expandRange content lines s e).1 ≤ s ∧ e ≤ (expandRange content lines s e).2 := by
  unfold expandRange
  split
  · constructor
    · simpa using braceUp_le lines s (s + 1) s 0
    · simpa using braceDown_ge lines e (lines.length - e) e 0
  · constructor
    · by_cases hs : s = 0
      · simp [hs]
      · simp only [hs, if_neg, not_false_iff]
        have := indentUp_le lines (indentOfL (lines.getD s [])) s s (s - 1)
        omega
    · have := indentDown_ge lines (indentOfL (lines.getD s [])) e
        (lines.length - (e + 1)) (e + 1)
      omega

/-- Every value in the current run or the remaining input is covered by one
of the runs produced by `groupRunsGo`. -/
theorem groupRunsGo_covers (l : List Int) :
    ∀ rs prev, rs ≤ prev → ∀ y, (y ∈ l ∨ (rs ≤ y ∧ y ≤ prev)) →
      ∃ p ∈ groupRunsGo rs prev l, p.1 ≤ y ∧ y ≤ p.2 := by
  induction l with
  | nil =>
    intro rs prev hrp y hy
    rcases hy with hy | hy
    · simp at hy
    · exact ⟨(rs, prev), by simp [groupRunsGo], hy.1, hy.2⟩
  | cons x xs ih =>
    intro rs prev hrp y hy
    by_cases hx : x = prev + 1
    · simp only [groupRunsGo]
      rw [if_pos hx]
      have hrx : rs ≤ x := by omega
      rcases hy with hy | hy
      · rcases List.mem_cons.mp hy with hy | hy
        · have h1 : rs ≤ y := by omega
          have h2 : y ≤ x := by omega
          exact ih rs x hrx y (Or.inr ⟨h1, h2⟩)
        · exact ih rs x hrx y (Or.inl hy)
      · have h2 : y ≤ x := by omega
        exact ih rs x hrx y (Or.inr ⟨hy.1, h2⟩)
    · simp only [groupRunsGo]
      rw [if_neg hx]
      rcases hy with hy | hy
      · rcases List.mem_cons.mp hy with hy | hy
        · obtain ⟨p, hp, h1, h2⟩ := ih x x le_rfl y (Or.inr ⟨le_of_eq hy.symm, le_of_eq hy⟩)
          exact ⟨p, List.mem_cons_of_mem _ hp, h1, h2⟩
        · obtain ⟨p, hp, h1, h2⟩ := ih x x le_rfl y (Or.inl hy)
          exact ⟨p, List.mem_cons_of_mem _ hp, h1, h2⟩
      · exact ⟨(rs, prev), List.mem_cons_self _ _, hy.1, hy.2⟩

/-- Run bounds produced by `groupRunsGo` come from the seed or the input. -/
theorem groupRunsGo_bounds (l : List Int) :
    ∀ rs prev, ∀ p ∈ groupRunsGo rs prev l,
      (p.1 = rs ∨ p.1 ∈ l) ∧ (p.2 = prev ∨ p.2 ∈ l) := by
  induction l with
  | nil => intro rs prev p hp; simp [groupRunsGo] at hp; simp [hp]
  | cons x xs ih =>
    intro rs prev p hp
    by_cases hx : x = prev + 1
    · simp only [groupRunsGo] at hp
      rw [if_pos hx] at hp
      have := ih rs x p hp
      refine ⟨?_, ?_⟩
      · rcases this.1 with h | h
        · exact Or.inl h
        · exact Or.inr (List.mem_cons_of_mem _ h)
      · rcases this.2 with h | h
        · exact Or.inr (h ▸ List.mem_cons_self _ _)
        · exact Or.inr (List.mem_cons_of_mem _ h)
    · simp only [groupRunsGo] at hp
      rw [if_neg hx] at hp
      rcases List.mem_cons.mp hp with hp | hp
      · subst hp; simp
      · have := ih x x p hp
        refine ⟨?_, ?_⟩
        · rcases this.1 with h | h
          · exact Or.inr (h ▸ List.mem_cons_self _ _)
          · exact Or.inr (List.mem_cons_of_mem _ h)
        · rcases this.2 with h | h
          · exact Or.inr (h ▸ List.mem_cons_self _ _)
          · exact Or.inr (List.mem_cons_of_mem _ h)

/-- Every element of the input is covered by one of its runs. -/
theorem groupRuns_covers (l : List Int) :
    ∀ y ∈ l, ∃ p ∈ groupRuns l, p.1 ≤ y ∧ y ≤ p.2 := by
  cases l with
  | nil => intro y hy; simp at hy
  | cons a rest =>
    intro y hy
    rcases List.mem_cons.mp hy with hy | hy
    · exact groupRunsGo_covers rest a a le_rfl y (Or.inr ⟨le_of_eq hy.symm, le_of_eq hy⟩)
    · exact groupRunsGo_covers rest a a le_rfl y (Or.inl hy)

/-- Run bounds are elements of the input. -/
theorem groupRuns_bounds (l : List Int) :
    ∀ p ∈ groupRuns l, p.1 ∈ l ∧ p.2 ∈ l := by
  cases l with
  | nil => intro p hp; simp [groupRuns] at hp
  | cons a rest =>
    intro p hp
    have := groupRunsGo_bounds rest a a p hp
    refine ⟨?_, ?_⟩
    · rcases this.1 with h | h
      · exact h ▸ List.mem_cons_self _ _
      · exact List.mem_cons_of_mem _ h
    · rcases this.2 with h | h
      · exact h ▸ List.mem_cons_self _ _
      · exact List.mem_cons_of_mem _ h

/-- Unfolding of the main branch of `expandLineNumbersToBlock`. -/
theorem expandLineNumbersToBlock_unfold (content : String) (lineNumbers : List Int)
    (hcond : ¬(content = "" ∨ lineNumbers = [])) :
    expandLineNumbersToBlock content lineNumbers =
      jsSetSort (((groupRuns (jsSetSort lineNumbers)).map
          (fun p => ((p.1 - 1).toNat, (p.2 - 1).toNat))).flatMap
        (fun p =>
          (List.range' (expandRange content (linesOf content) p.1 p.2).1
            ((expandRange content (linesOf content) p.1 p.2).2 + 1 -
              (expandRange content (linesOf content) p.1 p.2).1)).map
            (fun i => (↑i + 1 : Int)))) := by
  simp only [expandLineNumbersToBlock]
  rw [if_neg hcond]

/-- C5: on non-empty content and a non-empty list of 1-based in-bounds line
numbers, `expandLineNumbersToBlock` returns a strictly ascending list
(sorted, duplicate-free) that contains every input line number. -/
theorem expandLineNumbersToBlock_spec (content : String) (lineNumbers : List Int)
    (hc : content ≠ "") (hl : lineNumbers ≠ [])
    (hin : ∀ n ∈ lineNumbers, 1 ≤ n ∧ n ≤ ((linesOf content).length : Int)) :
    List.Sorted (· < ·) (expandLineNumbersToBlock content lineNumbers) ∧
    ∀ n ∈ lineNumbers, n ∈ expandLineNumbersToBlock content lineNumbers := by
  have hcond : ¬(content = "" ∨ lineNumbers = []) := by
    push_neg; exact ⟨hc, hl⟩
  have hrw := expandLineNumbersToBlock_unfold content lineNumbers hcond
  refine ⟨?_, ?_⟩
  · rw [hrw]; exact jsSetSort_sorted _
  · intro n hn
    rw [hrw, mem_jsSetSort]
    have hn1 : 1 ≤ n := (hin n hn).1
    have hnsort : n ∈ jsSetSort lineNumbers := (mem_jsSetSort _).mpr hn
    obtain ⟨p, hp, hun, hnv⟩ := groupRuns_covers _ n hnsort
    have hbounds := groupRuns_bounds _ p hp
    have hu1 : 1 ≤ p.1 :=
      (hin p.1 ((mem_jsSetSort _).mp hbounds.1)).1
    have hcov := expandRange_covers content (linesOf content)
      (p.1 - 1).toNat (p.2 - 1).toNat
    rw [List.mem_flatMap]
    refine ⟨((p.1 - 1).toNat, (p.2 - 1).toNat), List.mem_map_of_mem _ hp, ?_⟩
    dsimp only
    rw [List.mem_map]
    refine ⟨(n - 1).toNat, ?_, ?_⟩
    · rw [List.mem_range'_1]
      have h1 : (expandRange content (linesOf content)
          (p.1 - 1).toNat (p.2 - 1).toNat).1 ≤ (n - 1).toNat :=
        le_trans hcov.1 (Int.toNat_le_toNat (by omega))
      have h2 : (n - 1).toNat ≤ (expandRange content (linesOf content)
          (p.1 - 1).toNat (p.2 - 1).toNat).2 :=
        le_trans (Int.toNat_le_toNat (by omega)) hcov.2
      exact ⟨h1, by omega⟩
    · have : ((n - 1).toNat : Int) = n - 1 := Int.toNat_of_nonneg (by omega)
      omega

/-- Closed instance of `expandLineNumbersToBlock_spec` at a concrete input. -/
theorem expandLineNumbersToBlock_spec_witness :
    List.Sorted (· < ·) (expandLineNumbersToBlock "a\nb" [1]) ∧
    ∀ n ∈ ([1] : List Int), n ∈ expandLineNumbersToBlock "a\nb" [1] :=
  expandLineNumbersToBlock_spec "a\nb" [1] (by decide) (by decide) (by decide)

/-- The backward brace walk, started inside a block body whose lines are
brace-balanced and keyword-free, stops exactly at the block-introducing
keyword line `a`. -/
theorem braceUp_reach (lines : List (List Char)) (orig a : Nat)
    (hkw : containsBlockKeyword (lines.getD a []) = true) :
    ∀ k fuel, k < fuel →
      (∀ j, a < j → j ≤ a + k →
        countChar lbrace (lines.getD j []) = countChar rbrace (lines.getD j []) ∧
        containsBlockKeyword (lines.getD j []) = false) →
      braceUp lines orig fuel (a + k) 0 = a := by
  intro k
  induction k with
  | zero =>
    intro fuel hf _
    obtain ⟨f, rfl⟩ : ∃ f, fuel = f + 1 := ⟨fuel - 1, by omega⟩
    simp only [Nat.add_zero, braceUp]
    rw [if_pos (Or.inr hkw)]
  | succ k ih =>
    intro fuel hf hbody
    obtain ⟨f, rfl⟩ : ∃ f, fuel = f + 1 := ⟨fuel - 1, by omega⟩
    have hb := hbody (a + (k + 1)) (by omega) (by omega)
    have hnet : (0 : Int) + (countChar rbrace (lines.getD (a + (k + 1)) []) : Int)
        - (countChar lbrace (lines.getD (a + (k + 1)) []) : Int) = 0 := by
      have := hb.1; omega
    have hcond1 : ¬((0 : Int) + (countChar rbrace (lines.getD (a + (k + 1)) []) : Int)
        - (countChar lbrace (lines.getD (a + (k + 1)) []) : Int) < 0
        ∨ containsBlockKeyword (lines.getD (a + (k + 1)) []) = true) := by
      rintro (h | h)
      · omega
      · rw [hb.2] at h; cases h
    have hcond2 : ¬(a + (k + 1) = 0) := by omega
    simp only [braceUp]
    rw [if_neg hcond1, if_neg hcond2, hnet]
    have harg : a + (k + 1) - 1 = a + k := by omega
    rw [harg]
    exact ih f (by omega) (fun j h1 h2 => hbody j h1 (by omega))

/-- The forward brace walk, started inside a block body whose lines are
brace-balanced, stops exactly at the closing-brace line `c`. -/
theorem braceDown_reach (lines : List (List Char)) (orig c : Nat)
    (hclose : countChar lbrace (lines.getD c []) < countChar rbrace (lines.getD c []))
    (hlen : c < lines.length) :
    ∀ fuel i, i ≤ c → c + 1 - i ≤ fuel →
      (∀ j, i ≤ j → j < c →
        countChar lbrace (lines.getD j []) = countChar rbrace (lines.getD j [])) →
      braceDown lines orig fuel i 0 = c := by
  intro fuel
  induction fuel with
  | zero =>
    intro i h1 h2 _
    exact absurd h2 (by omega)
  | succ f ih =>
    intro i h1 h2 hbody
    by_cases hic : i = c
    · rw [hic]
      simp only [braceDown]
      rw [if_pos hlen, if_pos (by omega :
        (0 : Int) + (countChar lbrace (lines.getD c []) : Int)
          - (countChar rbrace (lines.getD c []) : Int) < 0)]
    · have hip : i < c := lt_of_le_of_ne h1 hic
      have hil : i < lines.length := lt_trans hip hlen
      have hbj := hbody i le_rfl hip
      have hnet : (0 : Int) + (countChar lbrace (lines.getD i []) : Int)
          - (countChar rbrace (lines.getD i []) : Int) = 0 := by omega
      simp only [braceDown]
      rw [if_pos hil, if_neg (by omega :
        ¬((0 : Int) + (countChar lbrace (lines.getD i []) : Int)
          - (countChar rbrace (lines.getD i []) : Int) < 0)), hnet]
      exact ih (i + 1) (by omega) (by omega) (fun j hj1 hj2 => hbody j (by omega) hj2)

/-- C4 counterexample: a changed line strictly inside a switch body that
itself matches the keyword-boundary regex (here: an `if` statement) stops
the backward walk before reaching the `switch` line, so the result is not
the full switch block.  The file is
`switch (x) {` / `  case 1:` / `    if (y) z();` / `}` and the changed line
is 3; the full block would be lines 1-4, but line 1 is missing. -/
theorem expandLineNumbersToBlock_switch_counterexample :
    expandLineNumbersToBlock
        "switch (x) \x7b\n  case 1:\n    if (y) z();\n\x7d" [3] = [3, 4] ∧
    (1 : Int) ∉ expandLineNumbersToBlock
        "switch (x) \x7b\n  case 1:\n    if (y) z();\n\x7d" [3] := by
  constructor <;> decide

/-- C4 (amended): for a file with braces whose switch header is at 0-based
line `a` (a line matching the keyword-boundary regex), whose closing brace
is at line `c` (a line with more `}` than `{`), whose body lines strictly
between them are brace-balanced per line, and with no keyword-regex match
on any line from the changed line back to (but excluding) the switch line,
a single changed line strictly inside the body expands to exactly the full
switch block, lines `a+1` through `c+1` (1-based).  Keywords on body lines
below the changed line are irrelevant to both walks and need no
hypothesis. -/
theorem expandLineNumbersToBlock_switch_block (content : String) (a s c : Nat)
    (has : a < s) (hsc : s < c) (hcl : c < (linesOf content).length)
    (hb1 : content.toList.contains lbrace = true)
    (hb2 : content.toList.contains rbrace = true)
    (hkw : containsBlockKeyword ((linesOf content).getD a []) = true)
    (hbal : ∀ j, a < j → j < c →
      countChar lbrace ((linesOf content).getD j []) =
        countChar rbrace ((linesOf content).getD j []))
    (hkwfree : ∀ j, a < j → j ≤ s →
      containsBlockKeyword ((linesOf content).getD j []) = false)
    (hclose : countChar lbrace ((linesOf content).getD c []) <
      countChar rbrace ((linesOf content).getD c [])) :
    expandLineNumbersToBlock content [(s : Int) + 1] =
      (List.range' a (c + 1 - a)).map (fun i => (↑i + 1 : Int)) := by
  have hcont : content ≠ "" := by
    intro h
    rw [h] at hb1
    simp [String.toList] at hb1
  have hcond : ¬(content = "" ∨ [(s : Int) + 1] = []) := by
    push_neg
    exact ⟨hcont, by simp⟩
  have hbraces : hasBracesStr content = true := by
    simp only [hasBracesStr, Bool.and_eq_true]
    exact ⟨hb1, hb2⟩
  have hsort1 : jsSetSort [(s : Int) + 1] = [(s : Int) + 1] :=
    jsSetSort_eq_self (by simp)
  have hruns : groupRuns [(s : Int) + 1] = [((s : Int) + 1, (s : Int) + 1)] := by
    simp [groupRuns, groupRunsGo]
  have htn : ((s : Int) + 1 - 1).toNat = s := by omega
  have hup : braceUp (linesOf content) s (s + 1) s 0 = a := by
    have := braceUp_reach (linesOf content) s a hkw (s - a) (s + 1) (by omega)
      (fun j h1 h2 => ⟨hbal j h1 (by omega), hkwfree j h1 (by omega)⟩)
    rwa [Nat.add_sub_cancel' (le_of_lt has)] at this
  have hdown : braceDown (linesOf content) s ((linesOf content).length - s) s 0 = c :=
    braceDown_reach (linesOf content) s c hclose hcl _ s (le_of_lt hsc) (by omega)
      (fun j hj1 hj2 => hbal j (by omega) hj2)
  have hex : expandRange content (linesOf content) s s = (a, c) := by
    unfold expandRange
    rw [if_pos hbraces, hup, hdown]
  rw [expandLineNumbersToBlock_unfold content _ hcond, hsort1, hruns]
  simp only [List.map_cons, List.map_nil, List.flatMap_cons, List.flatMap_nil,
    List.append_nil]
  rw [htn, hex]
  refine jsSetSort_eq_self ?_
  rw [List.Sorted, List.pairwise_map]
  exact (List.pairwise_lt_range' _ _).imp (fun h => by omega)

/-- Closed instance of `expandLineNumbersToBlock_switch_block` on a concrete
switch block (the shape of the repository's own `structuredLog` test case). -/
theorem expandLineNumbersToBlock_switch_block_witness :
    expandLineNumbersToBlock
        "switch (x) \x7b\n  case 1:\n    log(1);\n  default:\n    log(0);\n\x7d"
        [3] =
      (List.range' 0 6).map (fun i => (↑i + 1 : Int)) :=
  expandLineNumbersToBlock_switch_block
    "switch (x) \x7b\n  case 1:\n    log(1);\n  default:\n    log(0);\n\x7d"
    0 2 5 (by decide) (by decide) (by decide) (by decide) (by decide) (by decide)
    (by intro j h1 h2; interval_cases j <;> decide)
    (by intro j h1 h2; interval_cases j <;> decide)
    (by decide)

/-- C6: `mergeSimilarLineAnalyses` returns `[]` on no findings; returns the
single unmodified group on one finding; and for two or more findings falls
back to the identity merge (one group per finding, comments unmodified)
whenever the merge call throws or its response has no parsable
`LINES:`/`COMMENT:` section — it never propagates an error. -/
theorem mergeSimilarLineAnalyses_spec :
    (∀ out, mergeSimilarLineAnalyses out [] = []) ∧
    (∀ out f, mergeSimilarLineAnalyses out [f] = [⟨[f.line], f.comment⟩]) ∧
    (∀ out las, 2 ≤ las.length →
      ((∃ e, out = Except.error e) ∨
        (∀ r, out = Except.ok r → parseMergedSections r = [])) →
      mergeSimilarLineAnalyses out las =
        las.map fun l => (⟨[l.line], l.comment⟩ : MergedFinding)) := by
  refine ⟨fun out => by simp [mergeSimilarLineAnalyses], ?_, ?_⟩
  · intro out f
    simp [mergeSimilarLineAnalyses]
  · intro out las hlen hout
    have hne : ¬(las = []) := by
      intro h; subst h; simp at hlen
    have hone : ¬(las.length = 1) := by omega
    simp only [mergeSimilarLineAnalyses]
    rw [if_neg hne, if_neg hone]
    cases out with
    | error e => rfl
    | ok r =>
      rcases hout with ⟨e, he⟩ | hp
      · cases he
      · have : parseMergedSections r = [] := hp r rfl
        simp [this]

/-- Closed instance of `mergeSimilarLineAnalyses_spec`: two findings and an
unparsable merge response fall back to the identity merge. -/
theorem mergeSimilarLineAnalyses_spec_witness :
    mergeSimilarLineAnalyses (Except.ok "no structured output here")
        [⟨3, "use a guard"⟩, ⟨5, "rename this"⟩] =
      [⟨[3], "use a guard"⟩, ⟨[5], "rename this"⟩] :=
  mergeSimilarLineAnalyses_spec.2.2 (Except.ok "no structured output here")
    [⟨3, "use a guard"⟩, ⟨5, "rename this"⟩] (by decide)
    (Or.inr fun r hr => by cases hr; decide)

/-- C2 (refutation by evaluation): the timeout timer of `analyzeWithAI` has
no effect on the call — for every generate behaviour the result with the
timer fired equals the result with the timer not fired, and a call whose
`generate` completes only after the timeout still returns the completed
text rather than the claimed timeout error.  The `AbortError` branch is
reachable only if the LLM SDK itself rejects with an `AbortError`, never
through the `REQUEST_TIMEOUT` timer, because `controller.signal` is not
among the data passed to `generate`. -/
theorem analyzeWithAI_timeout_unwired :
    (∀ gen prompt code file ctx,
      analyzeWithAI gen prompt code file ctx true =
        analyzeWithAI gen prompt code file ctx false) ∧
    analyzeWithAI (fun _ _ => LLMOutcome.ok "late result") "p" "c" "f.js" "" true =
      Except.ok "late result" ∧
    analyzeWithAI (fun _ _ => LLMOutcome.ok "late result") "p" "c" "f.js" "" true ≠
      Except.error timeoutMessage := by
  refine ⟨fun gen p c f ctx => rfl, rfl, ?_⟩
  intro h
  exact Except.noConfusion h

theorem digitCh_isDigit (n : Nat) : isDigitCh (digitCh n) = true := by
  unfold digitCh
  split_ifs <;> decide

theorem natDecAux_digits : ∀ fuel n, ∀ c ∈ natDecAux fuel n, isDigitCh c = true := by
  intro fuel
  induction fuel with
  | zero => intro n c hc; simp [natDecAux] at hc
  | succ f ih =>
    intro n c hc
    simp only [natDecAux] at hc
    split at hc
    · simp at hc
      rw [hc]; exact digitCh_isDigit n
    · rcases List.mem_append.mp hc with h | h
      · exact ih _ c h
      · simp at h
        rw [h]; exact digitCh_isDigit (n % 10)

theorem natDec_digits (n : Nat) : ∀ c ∈ natDec n, isDigitCh c = true :=
  natDecAux_digits (n + 1) n

theorem isDigit_ne_nl {c : Char} (h : isDigitCh c = true) : c ≠ '\n' := by
  intro hc
  rw [hc] at h
  exact absurd h (by decide)

/-- No newline ever appears in a rendered join of line numbers. -/
theorem joinComma_no_nl : ∀ l : List Int, '\n' ∉ joinComma l := by
  have hint : ∀ n : Int, '\n' ∉ intDec n := by
    intro n hmem
    unfold intDec at hmem
    split at hmem
    · rcases List.mem_cons.mp hmem with h | h
      · exact absurd h.symm (by decide)
      · exact isDigit_ne_nl (natDec_digits _ _ h) rfl
    · exact isDigit_ne_nl (natDec_digits _ _ hmem) rfl
  intro l
  induction l with
  | nil => simp [joinComma]
  | cons x t ih =>
    cases t with
    | nil => exact hint x
    | cons y t' =>
      intro hmem
      simp only [joinComma] at hmem
      rcases List.mem_append.mp hmem with h | h
      · exact hint x h
      · rcases List.mem_cons.mp h with h | h
        · exact absurd h.symm (by decide)
        · rcases List.mem_cons.mp h with h | h
          · exact absurd h.symm (by decide)
          · exact ih h

theorem postFold_keys (findings : List PendingFinding) :
    ∀ seen, (postFold findings seen).Pairwise (fun p q => p.key ≠ q.key) ∧
      ∀ p ∈ postFold findings seen, p.key ∉ seen := by
  induction findings with
  | nil => intro seen; simp [postFold]
  | cons f rest ih =>
    intro seen
    simp only [postFold]
    split
    · exact ih seen
    · split
      · exact ih seen
      · rename_i hskip hseen
        split
        · refine ⟨List.Pairwise.cons ?_ (ih _).1, ?_⟩
          · intro q hq
            have := (ih (lowerL (trimL f.comment.toList) :: seen)).2 q hq
            simp only [List.mem_cons] at this
            push_neg at this
            exact fun h => this.1 h.symm
          · intro p hp
            rcases List.mem_cons.mp hp with hp | hp
            · rw [hp]; exact hseen
            · have := (ih (lowerL (trimL f.comment.toList) :: seen)).2 p hp
              simp only [List.mem_cons] at this
              push_neg at this
              exact this.2
        · refine ⟨(ih _).1, fun p hp => ?_⟩
          have := (ih (lowerL (trimL f.comment.toList) :: seen)).2 p hp
          simp only [List.mem_cons] at this
          push_neg at this
          exact this.2

theorem dropWhile_head_not {p : Char → Bool} :
    ∀ (l : List Char) (c : Char) (t : List Char),
      l.dropWhile p = c :: t → p c = false := by
  intro l
  induction l with
  | nil => intro c t h; simp at h
  | cons a l' ih =>
    intro c t h
    rw [List.dropWhile_cons] at h
    split at h
    · exact ih c t h
    · rename_i ha
      injection h with h1 _
      rw [← h1]
      exact eq_false_of_ne_true ha

/-- A list whose head and last characters are not whitespace is a fixed
point of `trimL`. -/
theorem trimL_eq_self {l : List Char}
    (h1 : ∀ c, l.head? = some c → isWsChar c = false)
    (h2 : ∀ c, l.getLast? = some c → isWsChar c = false) : trimL l = l := by
  unfold trimL
  have hrev : l.reverse.dropWhile isWsChar = l.reverse := by
    cases hr : l.reverse with
    | nil => simp
    | cons a t =>
      have hla : l.getLast? = some a := by
        rw [← List.head?_reverse, hr]; rfl
      rw [List.dropWhile_cons, if_neg (by simp [h2 a hla])]
  rw [hrev, List.reverse_reverse]
  cases hl : l with
  | nil => simp
  | cons a t =>
    have hha : l.head? = some a := by rw [hl]; rfl
    rw [List.dropWhile_cons, if_neg (by simp [h1 a hha])]

theorem lowerCh_eq_nl {d : Char} (h : lowerCh d = '\n') : d = '\n' := by
  unfold lowerCh at h
  split_ifs at h with hd
  · exfalso
    have h2 : d.toNat ≤ 90 := hd.2
    have h1 : 65 ≤ d.toNat := hd.1
    have hv : (d.toNat + 32).isValidChar := Or.inl (by omega)
    have htn : (Char.ofNat (d.toNat + 32)).toNat = d.toNat + 32 := by
      rw [Char.ofNat, dif_pos hv]
      rfl
    rw [h] at htn
    have : (10 : Nat) = d.toNat + 32 := htn
    omega
  · exact h

/-- The lowercased body suffix starts with two newlines and has no further
newline. -/
theorem lowerL_linesSfx_shape (l : List Int) :
    ∃ m, lowerL (linesSfx l) = '\n' :: '\n' :: m ∧ '\n' ∉ m := by
  refine ⟨lowerL ("_Lines: ".toList ++ joinComma l ++ ['_']), ?_, ?_⟩
  · unfold linesSfx lowerL
    rw [List.map_cons, List.map_cons]
    rw [show lowerCh '\n' = '\n' from by decide]
  · intro hmem
    unfold lowerL at hmem
    rw [List.mem_map] at hmem
    obtain ⟨d, hd, hld⟩ := hmem
    have hdn : d = '\n' := lowerCh_eq_nl hld
    subst hdn
    rcases List.mem_append.mp hd with hd | hd
    · rcases List.mem_append.mp hd with hd | hd
      · exact absurd hd (by decide)
      · exact joinComma_no_nl l hd
    · exact absurd hd (by decide)

theorem append_nl2_nil :
    ∀ (k m1 m2 : List Char), '\n' ∉ m1 → '\n' ∉ m2 →
      '\n' :: '\n' :: m1 = k ++ '\n' :: '\n' :: m2 → k = [] := by
  intro k m1 m2 hm1 hm2 h
  cases k with
  | nil => rfl
  | cons y k' =>
    simp only [List.cons_append] at h
    injection h with hy h
    cases k' with
    | nil =>
      simp only [List.nil_append] at h
      injection h with _ h2
      exact absurd (h2 ▸ List.mem_cons_self '\n' m2) hm1
    | cons z k'' =>
      simp only [List.cons_append] at h
      injection h with hz h2
      refine absurd ?_ hm1
      rw [h2]
      exact List.mem_append.mpr (Or.inr (List.mem_cons_self _ _))

/-- A comment key is recoverable from the posted body: appending the
newline-guarded `_Lines: ..._` suffix is injective in the key. -/
theorem key_sfx_inj :
    ∀ (k1 k2 m1 m2 : List Char), '\n' ∉ m1 → '\n' ∉ m2 →
      k1 ++ '\n' :: '\n' :: m1 = k2 ++ '\n' :: '\n' :: m2 → k1 = k2 := by
  intro k1
  induction k1 with
  | nil =>
    intro k2 m1 m2 hm1 hm2 h
    simp only [List.nil_append] at h
    exact (append_nl2_nil k2 m1 m2 hm1 hm2 h).symm
  | cons a k1' ih =>
    intro k2 m1 m2 hm1 hm2 h
    cases k2 with
    | nil =>
      simp only [List.nil_append] at h
      have := append_nl2_nil (a :: k1') m2 m1 hm2 hm1 h.symm
      exact absurd this (by simp)
    | cons b k2' =>
      simp only [List.cons_append] at h
      injection h with hab h2
      rw [hab, ih k2' m1 m2 hm1 hm2 h2]

/-- Structure of every posted comment: its normalised body is its dedup key
followed by the lowercased suffix, its anchor is the first line of its
group, and its side is `RIGHT`. -/
theorem postFold_shape (findings : List PendingFinding) :
    ∀ seen p, p ∈ postFold findings seen →
      lowerL (trimL p.body) = p.key ++ lowerL (linesSfx p.lines) ∧
      p.line = p.lines.getD 0 0 ∧ p.side = "RIGHT" := by
  induction findings with
  | nil => intro seen p hp; simp [postFold] at hp
  | cons f rest ih =>
    intro seen p hp
    simp only [postFold] at hp
    split at hp
    · exact ih seen p hp
    · split at hp
      · exact ih seen p hp
      · rename_i hpost hseen
        split at hp
        · rcases List.mem_cons.mp hp with hp | hp
          · subst hp
            refine ⟨?_, rfl, rfl⟩
            dsimp only
            have htne : trimL f.comment.toList ≠ [] := by
              intro h0
              apply hpost
              rw [h0]
              rfl
            obtain ⟨c, t, hct⟩ : ∃ c t, trimL f.comment.toList = c :: t := by
              cases hx : trimL f.comment.toList with
              | nil => exact absurd hx htne
              | cons c t => exact ⟨c, t, rfl⟩
            have hfix : trimL (trimL f.comment.toList ++ linesSfx f.lines) =
                trimL f.comment.toList ++ linesSfx f.lines := by
              apply trimL_eq_self
              · intro d hd
                rw [hct] at hd
                simp only [List.cons_append, List.head?_cons] at hd
                injection hd with hd
                rw [← hd]
                exact dropWhile_head_not _ c t hct
              · intro d hd
                have hsfx : linesSfx f.lines =
                    ('\n' :: '\n' :: ("_Lines: ".toList ++ joinComma f.lines)) ++
                      ['_'] := by
                  unfold linesSfx
                  simp
                rw [List.getLast?_append_of_ne_nil _ (by
                    rw [hsfx]
                    simp)] at hd
                rw [hsfx, List.getLast?_append_of_ne_nil _ (by simp)] at hd
                simp only [List.getLast?_singleton] at hd
                injection hd with hd
                rw [← hd]
                decide
            rw [hfix]
            unfold lowerL
            rw [List.map_append]
          · exact ih _ p hp
        · exact ih _ p hp

/-- C8: across one review run, for every interleaving of the surviving
merged findings, no two posted inline comments share the same normalised
(trimmed, lowercased) body — the `postedLineAnalyses` key set suppresses
later findings with an already-posted normalised comment across all files
and merge groups — and every posted comment is anchored at the first line
number of its merged group with side `RIGHT`. -/
theorem processReviewCommand_posting_spec (findings : List PendingFinding) :
    (processReviewPostedComments findings).Pairwise
      (fun p q => lowerL (trimL p.body) ≠ lowerL (trimL q.body)) ∧
    ∀ p ∈ processReviewPostedComments findings,
      p.line = p.lines.getD 0 0 ∧ p.side = "RIGHT" := by
  have hkeys := (postFold_keys findings []).1
  refine ⟨?_, fun p hp => ⟨(postFold_shape findings [] p hp).2.1,
    (postFold_shape findings [] p hp).2.2⟩⟩
  refine List.Pairwise.imp_of_mem ?_ hkeys
  intro p q hp hq hne heq
  obtain ⟨m1, he1, hm1⟩ := lowerL_linesSfx_shape p.lines
  obtain ⟨m2, he2, hm2⟩ := lowerL_linesSfx_shape q.lines
  apply hne
  have h1 := (postFold_shape findings [] p hp).1
  have h2 := (postFold_shape findings [] q hq).1
  rw [h1, h2, he1, he2] at heq
  exact key_sfx_inj _ _ _ _ hm1 hm2 heq

theorem leadsWith_length : ∀ {t l : List Char}, leadsWith t l = true → t.length ≤ l.length := by
  intro t
  induction t with
  | nil => intro l _; simp
  | cons a as ih =>
    intro l h
    cases l with
    | nil => simp [leadsWith] at h
    | cons b bs =>
      simp only [leadsWith, Bool.and_eq_true] at h
      simpa using ih h.2

theorem leadsWith_append_self : ∀ t r : List Char, leadsWith t (t ++ r) = true := by
  intro t
  induction t with
  | nil => intro r; rfl
  | cons a as ih => intro r; simp [leadsWith, ih]

theorem takeWhile_append_all {p : Char → Bool} :
    ∀ xs ys : List Char, (∀ c ∈ xs, p c = true) →
      (xs ++ ys).takeWhile p = xs ++ ys.takeWhile p ∧
      (xs ++ ys).dropWhile p = ys.dropWhile p := by
  intro xs
  induction xs with
  | nil => intro ys _; simp
  | cons a as ih =>
    intro ys h
    have ha : p a = true := h a (List.mem_cons_self _ _)
    have := ih ys (fun c hc => h c (List.mem_cons_of_mem _ hc))
    simp only [List.cons_append, List.takeWhile_cons, List.dropWhile_cons, ha,
      if_pos]
    exact ⟨by rw [this.1], by rw [this.2]⟩

theorem dropWhile_head_fails {p : Char → Bool} {ys : List Char}
    (h : ∀ c, ys.head? = some c → p c = false) :
    ys.takeWhile p = [] ∧ ys.dropWhile p = ys := by
  cases ys with
  | nil => simp
  | cons a t =>
    have := h a rfl
    simp [List.takeWhile_cons, List.dropWhile_cons, this]

theorem dropLit_append : ∀ lit r : List Char, dropLit lit (lit ++ r) = some r := by
  intro lit
  induction lit with
  | nil => intro r; rfl
  | cons a as ih => intro r; simp [dropLit, ih]

theorem dropLit_suffix : ∀ lit l r : List Char, dropLit lit l = some r →
    l = lit ++ r := by
  intro lit
  induction lit with
  | nil =>
    intro l r h
    simp only [dropLit, Option.some.injEq] at h
    rw [h]; rfl
  | cons a as ih =>
    intro l r h
    cases l with
    | nil => simp [dropLit] at h
    | cons b bs =>
      simp only [dropLit] at h
      split at h
      · rename_i hab
        rw [List.cons_append, ← hab, ih bs r h]
      · exact absurd h (by simp)

theorem dropLit_ext : ∀ (lit t w : List Char), '\n' ∉ lit →
    dropLit lit (t ++ '\n' :: w) = (dropLit lit t).map (· ++ '\n' :: w) := by
  intro lit
  induction lit with
  | nil => intro t w _; rfl
  | cons a as ih =>
    intro t w hlit
    cases t with
    | nil =>
      have ha : a ≠ '\n' := fun h => hlit (h ▸ List.mem_cons_self _ _)
      simp [dropLit, ha]
    | cons b bs =>
      simp only [List.cons_append, dropLit]
      split
      · exact ih bs w (fun h => hlit (List.mem_cons_of_mem _ h))
      · rfl

theorem digitCh_val {m : Nat} (h : m < 10) : (digitCh m).toNat - 48 = m := by
  interval_cases m <;> decide

theorem natDecAux_ne_nil : ∀ fuel n, 0 < fuel → natDecAux fuel n ≠ [] := by
  intro fuel n h
  cases fuel with
  | zero => omega
  | succ f =>
    simp only [natDecAux]
    split
    · simp
    · simp

theorem natDec_ne_nil (n : Nat) : natDec n ≠ [] :=
  natDecAux_ne_nil (n + 1) n (by omega)

theorem digitsVal_natDecAux : ∀ fuel n, n < fuel →
    digitsVal (natDecAux fuel n) = n := by
  intro fuel
  induction fuel with
  | zero => intro n h; omega
  | succ f ih =>
    intro n h
    simp only [natDecAux]
    split
    · rename_i h10
      show digitsVal [digitCh n] = n
      unfold digitsVal
      simp only [List.foldl_cons, List.foldl_nil, Nat.mul_zero, Nat.zero_add]
      exact digitCh_val h10
    · rename_i h10
      have hdivlt : n / 10 < n := Nat.div_lt_self (by omega) (by omega)
      unfold digitsVal
      rw [List.foldl_append]
      have hval := ih (n / 10) (by omega)
      unfold digitsVal at hval
      rw [hval]
      simp only [List.foldl_cons, List.foldl_nil]
      have := digitCh_val (Nat.mod_lt n (show 0 < 10 by omega))
      omega

theorem digitsVal_natDec (n : Nat) : digitsVal (natDec n) = n :=
  digitsVal_natDecAux (n + 1) n (by omega)

theorem takeDigits_natDec_append (n : Nat) (rest : List Char)
    (hrest : ∀ c, rest.head? = some c → isDigitCh c = false) :
    takeDigits (natDec n ++ rest) = (natDec n, rest) := by
  unfold takeDigits
  have h1 := takeWhile_append_all (natDec n) rest (natDec_digits n)
  have h2 := dropWhile_head_fails hrest
  rw [h1.1, h1.2, h2.1, h2.2, List.append_nil]

theorem takeDrop_append_nl {p : Char → Bool} (hp : p '\n' = false) (t w : List Char) :
    (t ++ '\n' :: w).takeWhile p = t.takeWhile p ∧
    (t ++ '\n' :: w).dropWhile p = t.dropWhile p ++ '\n' :: w := by
  have hsplit : t ++ '\n' :: w = t.takeWhile p ++ (t.dropWhile p ++ '\n' :: w) := by
    rw [← List.append_assoc, List.takeWhile_append_dropWhile]
  have h1 := takeWhile_append_all (t.takeWhile p) (t.dropWhile p ++ '\n' :: w)
    (fun _ hc => List.mem_takeWhile_imp hc)
  have hhead : ∀ c, (t.dropWhile p ++ '\n' :: w).head? = some c → p c = false := by
    intro c hc
    cases hd : t.dropWhile p with
    | nil =>
      rw [hd, List.nil_append, List.head?_cons, Option.some.injEq] at hc
      rw [← hc]; exact hp
    | cons a t2 =>
      rw [hd, List.cons_append, List.head?_cons, Option.some.injEq] at hc
      rw [← hc]
      exact dropWhile_head_not t a t2 hd
  have h2 := dropWhile_head_fails hhead
  constructor
  · rw [hsplit, h1.1, h2.1, List.append_nil]
  · rw [hsplit, h1.2, h2.2]

theorem leadsWith_nl_ext : ∀ (term t w : List Char), '\n' ∉ term → '\n' ∉ t →
    leadsWith term (t ++ '\n' :: w) = leadsWith term t := by
  intro term
  induction term with
  | nil => intro t w _ _; rfl
  | cons a as ih =>
    intro t w hterm ht
    have ha : a ≠ '\n' := fun h => hterm (h ▸ List.mem_cons_self _ _)
    cases t with
    | nil =>
      simp only [List.nil_append, leadsWith]
      rw [Bool.and_eq_false_iff]
      left
      exact decide_eq_false ha
    | cons b bs =>
      simp only [List.cons_append, leadsWith, List.append_eq]
      rw [ih bs w (fun h => hterm (List.mem_cons_of_mem _ h))
        (fun h => ht (List.mem_cons_of_mem _ h))]

theorem drop_nl_ext {term t : List Char} (w : List Char)
    (h : leadsWith term t = true) :
    (t ++ '\n' :: w).drop term.length = t.drop term.length ++ '\n' :: w :=
  List.drop_append_of_le_length (leadsWith_length h)

theorem parseNumPair_suffix {term l : List Char} {a : Nat}
    {b : Option (List Char)} {r : List Char}
    (h : parseNumPair term l = some (a, b, r)) : ∃ p, l = p ++ r := by
  unfold parseNumPair at h
  split_ifs at h with h1 h2 h3 h4
  · simp only [Option.some.injEq, Prod.mk.injEq] at h
    refine ⟨l.takeWhile isDigitCh ++ ',' ::
      (((l.dropWhile isDigitCh).tail).takeWhile isDigitCh ++
        (((l.dropWhile isDigitCh).tail).dropWhile isDigitCh).take term.length), ?_⟩
    have hd : l.dropWhile isDigitCh =
        ',' :: (l.dropWhile isDigitCh).tail := by
      cases hcase : l.dropWhile isDigitCh with
      | nil => rw [hcase] at h2; exact absurd h2 (by simp)
      | cons x t2 =>
        rw [hcase] at h2
        rw [List.head?_cons, Option.some.injEq] at h2
        rw [h2, List.tail_cons]
    calc l = l.takeWhile isDigitCh ++ l.dropWhile isDigitCh :=
          (List.takeWhile_append_dropWhile _ _).symm
      _ = l.takeWhile isDigitCh ++ ',' :: (l.dropWhile isDigitCh).tail := by
          rw [← hd]
      _ = _ := by
          rw [← h.2.2]
          conv_lhs => rw [← List.takeWhile_append_dropWhile isDigitCh
            ((l.dropWhile isDigitCh).tail)]
          conv_lhs => rw [← List.take_append_drop term.length
            (((l.dropWhile isDigitCh).tail).dropWhile isDigitCh)]
          simp [List.append_assoc]
  · simp only [Option.some.injEq, Prod.mk.injEq] at h
    refine ⟨l.takeWhile isDigitCh ++ (l.dropWhile isDigitCh).take term.length, ?_⟩
    rw [← h.2.2]
    conv_lhs => rw [← List.takeWhile_append_dropWhile isDigitCh l]
    conv_lhs => rw [← List.take_append_drop term.length (l.dropWhile isDigitCh)]
    simp [List.append_assoc]

theorem parseNumPair_digits {term l : List Char} {a : Nat}
    {s : List Char} {r : List Char}
    (h : parseNumPair term l = some (a, some s, r)) :
    ∀ c ∈ s, isDigitCh c = true := by
  unfold parseNumPair at h
  split_ifs at h with h1 h2 h3 h4
  · simp only [Option.some.injEq, Prod.mk.injEq] at h
    intro c hc
    rw [← h.2.1] at hc
    exact List.mem_takeWhile_imp hc
  · simp only [Option.some.injEq, Prod.mk.injEq] at h
    exact absurd h.2.1 (by simp)

theorem parseNumPair_ext (term t w : List Char) (hterm : '\n' ∉ term)
    (ht : '\n' ∉ t) :
    parseNumPair term (t ++ '\n' :: w) =
      (parseNumPair term t).map (fun x => (x.1, x.2.1, x.2.2 ++ '\n' :: w)) := by
  have hnl : isDigitCh '\n' = false := by decide
  have htd := takeDrop_append_nl hnl t w
  unfold parseNumPair
  rw [htd.1, htd.2]
  by_cases h1 : t.takeWhile isDigitCh = []
  · rw [if_pos h1, if_pos h1]; rfl
  · rw [if_neg h1, if_neg h1]
    cases hd : t.dropWhile isDigitCh with
    | nil =>
      simp only [List.nil_append]
      rw [if_neg (by simp : ¬(('\n' :: w : List Char)).head? = some ','),
        if_neg (by simp : ¬(([] : List Char)).head? = some ',')]
      have hlw : leadsWith term ('\n' :: w) = leadsWith term [] := by
        have := leadsWith_nl_ext term [] w hterm (by simp)
        simpa using this
      rw [hlw]
      by_cases hle : leadsWith term ([] : List Char) = true
      · rw [if_pos hle, if_pos hle]
        have hlen : term.length ≤ 0 := leadsWith_length hle
        have hterm0 : term.length = 0 := Nat.le_zero.mp hlen
        rw [hterm0]
        rfl
      · rw [if_neg hle, if_neg hle]; rfl
    | cons x tl =>
      have htl : '\n' ∉ x :: tl := by
        intro hm
        exact ht ((List.dropWhile_sublist isDigitCh).subset (hd ▸ hm))
      simp only [List.cons_append]
      by_cases hx : x = ','
      · rw [if_pos (by simp [hx] : ((x :: (tl ++ '\n' :: w) :
            List Char)).head? = some ','),
          if_pos (by simp [hx] : ((x :: tl : List Char)).head? = some ',')]
        simp only [List.tail_cons]
        have htl2 : '\n' ∉ tl := fun hm => htl (List.mem_cons_of_mem _ hm)
        have htd2 := takeDrop_append_nl hnl tl w
        rw [htd2.1, htd2.2]
        have htdw : '\n' ∉ tl.dropWhile isDigitCh := fun hm =>
          htl2 ((List.dropWhile_sublist isDigitCh).subset hm)
        rw [leadsWith_nl_ext term _ w hterm htdw]
        by_cases hle : leadsWith term (tl.dropWhile isDigitCh) = true
        · rw [if_pos hle, if_pos hle, drop_nl_ext w hle]
          rfl
        · rw [if_neg hle, if_neg hle]; rfl
      · rw [if_neg (by simp [hx] : ¬((x :: (tl ++ '\n' :: w) :
            List Char)).head? = some ','),
          if_neg (by simp [hx] : ¬((x :: tl : List Char)).head? = some ',')]
        have hlw : leadsWith term (x :: (tl ++ '\n' :: w)) =
            leadsWith term (x :: tl) := by
          have := leadsWith_nl_ext term (x :: tl) w hterm htl
          simpa using this
        rw [hlw]
        by_cases hle : leadsWith term (x :: tl) = true
        · rw [if_pos hle, if_pos hle]
          have := drop_nl_ext w hle
          simp only [List.cons_append] at this
          rw [this]
          rfl
        · rw [if_neg hle, if_neg hle]; rfl

theorem tryHeader_ext (t w : List Char) (ht : '\n' ∉ t) :
    tryHeader (t ++ '\n' :: w) =
      (tryHeader t).map
        (fun x => (x.1, x.2.1, x.2.2.1, x.2.2.2.1, x.2.2.2.2 ++ '\n' :: w)) := by
  have hr0 := dropLit_ext "@@ -".toList t w (by decide)
  unfold tryHeader
  cases h0 : dropLit "@@ -".toList t with
  | none =>
    rw [h0] at hr0
    simp only [Option.map_none'] at hr0
    rw [hr0]
    rfl
  | some r0 =>
    rw [h0] at hr0
    simp only [Option.map_some'] at hr0
    rw [hr0]
    simp only [Option.some_bind]
    have hr0nl : '\n' ∉ r0 := by
      intro hm
      apply ht
      rw [dropLit_suffix _ _ _ h0]
      exact List.mem_append_right _ hm
    have he1 := parseNumPair_ext (' ' :: '+' :: []) r0 w (by decide) hr0nl
    cases h1 : parseNumPair (' ' :: '+' :: []) r0 with
    | none =>
      rw [h1] at he1
      simp only [Option.map_none'] at he1
      rw [he1]
      rfl
    | some q1 =>
      obtain ⟨a, b, r1⟩ := q1
      rw [h1] at he1
      simp only [Option.map_some'] at he1
      rw [he1]
      simp only [Option.some_bind]
      have hr1nl : '\n' ∉ r1 := by
        intro hm
        obtain ⟨p1, hp1⟩ := parseNumPair_suffix h1
        exact hr0nl (by rw [hp1]; exact List.mem_append_right _ hm)
      have he2 := parseNumPair_ext (' ' :: '@' :: '@' :: []) r1 w (by decide) hr1nl
      cases h2 : parseNumPair (' ' :: '@' :: '@' :: []) r1 with
      | none =>
        rw [h2] at he2
        simp only [Option.map_none'] at he2
        rw [he2]
        rfl
      | some q2 =>
        obtain ⟨c, d, r2⟩ := q2
        rw [h2] at he2
        simp only [Option.map_some'] at he2
        rw [he2]
        rfl

theorem tryHeader_some {l : List Char} {a : Nat} {b : Option (List Char)}
    {c : Nat} {d : Option (List Char)} {rest : List Char}
    (h : tryHeader l = some (a, b, c, d, rest)) :
    (∃ p, l = p ++ rest ∧ p ≠ []) ∧
    (∀ s, b = some s → ∀ ch ∈ s, isDigitCh ch = true) ∧
    (∀ s, d = some s → ∀ ch ∈ s, isDigitCh ch = true) := by
  unfold tryHeader at h
  cases h0 : dropLit "@@ -".toList l with
  | none => rw [h0] at h; exact absurd h (by simp)
  | some r0 =>
    rw [h0] at h
    simp only [Option.some_bind] at h
    cases h1 : parseNumPair (' ' :: '+' :: []) r0 with
    | none => rw [h1] at h; exact absurd h (by simp)
    | some q1 =>
      obtain ⟨a1, b1, r1⟩ := q1
      rw [h1] at h
      simp only [Option.some_bind] at h
      cases h2 : parseNumPair (' ' :: '@' :: '@' :: []) r1 with
      | none => rw [h2] at h; exact absurd h (by simp)
      | some q2 =>
        obtain ⟨c1, d1, r2⟩ := q2
        rw [h2] at h
        simp only [Option.some_bind, Option.some.injEq, Prod.mk.injEq] at h
        obtain ⟨ha, hb, hc, hd, hrest⟩ := h
        obtain ⟨p1, hp1⟩ := parseNumPair_suffix h1
        obtain ⟨p2, hp2⟩ := parseNumPair_suffix h2
        refine ⟨⟨"@@ -".toList ++ (p1 ++ p2), ?_, ?_⟩, ?_, ?_⟩
        · rw [dropLit_suffix _ _ _ h0, hp1, hp2, ← hrest]
          simp [List.append_assoc]
        · intro hx
          rw [List.append_eq_nil] at hx
          exact absurd hx.1 (by decide)
        · intro s hs
          rw [hb, hs] at h1
          exact parseNumPair_digits h1
        · intro s hs
          rw [hd, hs] at h2
          exact parseNumPair_digits h2

theorem replaceScanAux_nil (off f : Nat) : replaceScanAux off f [] = [] := by
  cases f <;> rfl

theorem replaceScanAux_fuel (off : Nat) : ∀ f1 : Nat, ∀ {f2 : Nat} {l : List Char},
    l.length ≤ f1 → l.length ≤ f2 →
    replaceScanAux off f1 l = replaceScanAux off f2 l := by
  intro f1
  induction f1 with
  | zero =>
    intro f2 l h1 _
    have hl : l = [] := List.length_eq_zero.mp (Nat.le_zero.mp h1)
    subst hl
    rw [replaceScanAux_nil, replaceScanAux_nil]
  | succ g ih =>
    intro f2 l h1 h2
    cases l with
    | nil => rw [replaceScanAux_nil, replaceScanAux_nil]
    | cons x t =>
      cases f2 with
      | zero => simp at h2
      | succ f2g =>
        simp only [replaceScanAux]
        cases hth : tryHeader (x :: t) with
        | none =>
          show x :: replaceScanAux off g t = x :: replaceScanAux off f2g t
          have hlen : t.length ≤ g := by simp [List.length_cons] at h1; omega
          have hlen2 : t.length ≤ f2g := by simp [List.length_cons] at h2; omega
          rw [ih hlen hlen2]
        | some q =>
          obtain ⟨a, b, c, d, rest⟩ := q
          show renderRepl off a b c d ++ replaceScanAux off g rest =
            renderRepl off a b c d ++ replaceScanAux off f2g rest
          obtain ⟨⟨p, hp, hpne⟩, -, -⟩ := tryHeader_some hth
          have hrl : rest.length ≤ t.length := by
            have hlp := congrArg List.length hp
            simp only [List.length_cons, List.length_append] at hlp
            cases p with
            | nil => exact absurd rfl hpne
            | cons y ys => simp only [List.length_cons] at hlp; omega
          have hg : rest.length ≤ g := by simp [List.length_cons] at h1; omega
          have hg2 : rest.length ≤ f2g := by simp [List.length_cons] at h2; omega
          rw [ih hg hg2]

theorem comma_seg_no_nl (b : Option (List Char))
    (hb : ∀ s, b = some s → ∀ ch ∈ s, isDigitCh ch = true) :
    '\n' ∉ (if optStr b = [] then [] else ',' :: optStr b) := by
  split_ifs with h
  · simp
  · intro hm
    rcases List.mem_cons.mp hm with h1 | h1
    · exact absurd h1 (by decide)
    · cases b with
      | none => exact absurd h1 (by simp [optStr])
      | some s => exact absurd (hb s rfl '\n' h1) (by decide)

theorem renderRepl_no_nl (off a c : Nat) (b d : Option (List Char))
    (hb : ∀ s, b = some s → ∀ ch ∈ s, isDigitCh ch = true)
    (hd : ∀ s, d = some s → ∀ ch ∈ s, isDigitCh ch = true) :
    '\n' ∉ renderRepl off a b c d := by
  intro hm
  unfold renderRepl at hm
  simp only [List.mem_append] at hm
  rcases hm with ((((((hm | hm) | hm) | hm) | hm) | hm) | hm)
  · exact absurd hm (by decide)
  · exact isDigit_ne_nl (natDec_digits (a + off) '\n' hm) rfl
  · exact comma_seg_no_nl b hb hm
  · exact absurd hm (by decide)
  · exact isDigit_ne_nl (natDec_digits (c + off) '\n' hm) rfl
  · exact comma_seg_no_nl d hd hm
  · exact absurd hm (by decide)

theorem replaceScanAux_no_nl (off : Nat) : ∀ (f : Nat) (l : List Char),
    '\n' ∉ l → '\n' ∉ replaceScanAux off f l := by
  intro f
  induction f with
  | zero => intro l h; exact h
  | succ g ih =>
    intro l h
    cases l with
    | nil => rw [replaceScanAux_nil]; simp
    | cons x t =>
      simp only [replaceScanAux]
      cases hth : tryHeader (x :: t) with
      | none =>
        show '\n' ∉ x :: replaceScanAux off g t
        intro hm
        rcases List.mem_cons.mp hm with h1 | h1
        · exact h (h1 ▸ List.mem_cons_self x t)
        · exact ih t (fun hx => h (List.mem_cons_of_mem _ hx)) h1
      | some q =>
        obtain ⟨a, b, c, d, rest⟩ := q
        show '\n' ∉ renderRepl off a b c d ++ replaceScanAux off g rest
        intro hm
        obtain ⟨⟨p, hp, -⟩, hbdig, hddig⟩ := tryHeader_some hth
        rcases List.mem_append.mp hm with h1 | h1
        · exact renderRepl_no_nl off a c b d hbdig hddig h1
        · have hrnl : '\n' ∉ rest := by
            intro hx
            apply h
            rw [hp]
            exact List.mem_append_right p hx
          exact ih rest hrnl h1

theorem replaceScanAux_split (off : Nat) (l2 : List Char) :
    ∀ f1 : Nat, ∀ (f : Nat) (l1 : List Char),
    l1.length ≤ f1 → (l1 ++ '\n' :: l2).length ≤ f → '\n' ∉ l1 →
    replaceScanAux off f (l1 ++ '\n' :: l2) =
      replaceScanAux off f1 l1 ++ '\n' :: replaceScan off l2 := by
  intro f1
  induction f1 with
  | zero =>
    intro f l1 h1 hf hnl
    have hl : l1 = [] := List.length_eq_zero.mp (Nat.le_zero.mp h1)
    subst hl
    simp only [List.nil_append] at hf ⊢
    rw [replaceScanAux_nil, List.nil_append]
    cases f with
    | zero => simp [List.length_cons] at hf
    | succ fg =>
      simp only [replaceScanAux]
      have hth : tryHeader ('\n' :: l2) = none := by
        unfold tryHeader
        have hdl : dropLit "@@ -".toList ('\n' :: l2) = none := by
          simp [dropLit, show ('@' : Char) ≠ '\n' from by decide]
        rw [hdl]
        rfl
      rw [hth]
      show '\n' :: replaceScanAux off fg l2 = '\n' :: replaceScan off l2
      have hlf : l2.length ≤ fg := by simp [List.length_cons] at hf; omega
      simp only [replaceScan]
      rw [replaceScanAux_fuel off fg hlf (le_refl _)]
  | succ g ih =>
    intro f l1 h1 hf hnl
    cases l1 with
    | nil =>
      have hbase := ih f [] (by simp) hf (by simp)
      rw [hbase, replaceScanAux_nil, replaceScanAux_nil]
    | cons x t =>
      cases f with
      | zero =>
        exfalso
        simp [List.length_append, List.length_cons] at hf
      | succ fg =>
        simp only [List.cons_append, replaceScanAux]
        have hext := tryHeader_ext (x :: t) l2 hnl
        simp only [List.cons_append] at hext
        cases hth : tryHeader (x :: t) with
        | none =>
          rw [hth] at hext
          simp only [Option.map_none'] at hext
          rw [hext]
          show x :: replaceScanAux off fg (t ++ '\n' :: l2) =
            (x :: replaceScanAux off g t) ++ '\n' :: replaceScan off l2
          have hlt : t.length ≤ g := by simp [List.length_cons] at h1; omega
          have hft : (t ++ '\n' :: l2).length ≤ fg := by
            simp only [List.length_append, List.length_cons] at hf ⊢
            omega
          rw [ih fg t hlt hft (fun hx => hnl (List.mem_cons_of_mem _ hx))]
          simp [List.cons_append]
        | some q =>
          obtain ⟨a, b, c, d, rest⟩ := q
          rw [hth] at hext
          simp only [Option.map_some'] at hext
          rw [hext]
          show renderRepl off a b c d ++ replaceScanAux off fg (rest ++ '\n' :: l2) =
            (renderRepl off a b c d ++ replaceScanAux off g rest) ++
              '\n' :: replaceScan off l2
          obtain ⟨⟨p, hp, hpne⟩, -, -⟩ := tryHeader_some hth
          have hrl : rest.length ≤ t.length := by
            have hlp := congrArg List.length hp
            simp only [List.length_cons, List.length_append] at hlp
            cases p with
            | nil => exact absurd rfl hpne
            | cons y ys => simp only [List.length_cons] at hlp; omega
          have hrg : rest.length ≤ g := by simp [List.length_cons] at h1; omega
          have hfr : (rest ++ '\n' :: l2).length ≤ fg := by
            simp only [List.length_append, List.length_cons] at hf ⊢
            omega
          have hrnl : '\n' ∉ rest := by
            intro hx
            apply hnl
            rw [hp]
            exact List.mem_append_right p hx
          rw [ih fg rest hrg hfr hrnl]
          simp [List.append_assoc]

theorem replaceScan_split (off : Nat) (l1 l2 : List Char) (h : '\n' ∉ l1) :
    replaceScan off (l1 ++ '\n' :: l2) =
      replaceScan off l1 ++ '\n' :: replaceScan off l2 :=
  replaceScanAux_split off l2 l1.length (l1 ++ '\n' :: l2).length l1
    (le_refl _) (le_refl _) h

theorem splitCh_no_sep (c : Char) : ∀ l : List Char, c ∉ l → splitCh c l = [l] := by
  intro l
  induction l with
  | nil => intro _; rfl
  | cons x t ih =>
    intro h
    have hx : x ≠ c := fun he => h (he ▸ List.mem_cons_self _ _)
    have ht := ih (fun hm => h (List.mem_cons_of_mem _ hm))
    simp only [splitCh, ht]
    rw [if_neg hx]

theorem splitCh_append_sep (c : Char) : ∀ l1 l2 : List Char, c ∉ l1 →
    splitCh c (l1 ++ c :: l2) = l1 :: splitCh c l2 := by
  intro l1
  induction l1 with
  | nil =>
    intro l2 _
    simp only [List.nil_append, splitCh]
    cases h : splitCh c l2 with
    | nil => exact absurd h (splitCh_ne_nil c l2)
    | cons hd r => simp
  | cons x t ih =>
    intro l2 h
    have hx : x ≠ c := fun he => h (he ▸ List.mem_cons_self _ _)
    have ht := ih l2 (fun hm => h (List.mem_cons_of_mem _ hm))
    simp only [List.cons_append, splitCh, List.append_eq, ht]
    simp [hx]

theorem split_first_nl : ∀ raw : List Char, '\n' ∈ raw →
    ∃ l1 l2, raw = l1 ++ '\n' :: l2 ∧ '\n' ∉ l1 ∧ l2.length < raw.length := by
  intro raw
  induction raw with
  | nil => intro h; simp at h
  | cons x t ih =>
    intro h
    by_cases hx : x = '\n'
    · exact ⟨[], t, by rw [hx]; rfl, by simp, by simp⟩
    · have hm : '\n' ∈ t := by
        rcases List.mem_cons.mp h with h1 | h1
        · exact absurd h1.symm hx
        · exact h1
      obtain ⟨l1, l2, he, hn, hl⟩ := ih hm
      refine ⟨x :: l1, l2, by rw [List.cons_append, he], ?_, ?_⟩
      · intro hm2
        rcases List.mem_cons.mp hm2 with h2 | h2
        · exact hx h2.symm
        · exact hn h2
      · simp only [List.length_cons]
        omega

theorem replaceScan_lines (off : Nat) : ∀ (n : Nat) (raw : List Char),
    raw.length ≤ n →
    splitCh '\n' (replaceScan off raw) =
      (splitCh '\n' raw).map (replaceScan off) := by
  intro n
  induction n with
  | zero =>
    intro raw h
    have hr : raw = [] := List.length_eq_zero.mp (Nat.le_zero.mp h)
    subst hr
    rfl
  | succ m ih =>
    intro raw h
    by_cases hm : '\n' ∈ raw
    · obtain ⟨l1, l2, he, hn, hl⟩ := split_first_nl raw hm
      subst he
      rw [replaceScan_split off l1 l2 hn, splitCh_append_sep '\n' l1 l2 hn]
      have h1 : '\n' ∉ replaceScan off l1 :=
        replaceScanAux_no_nl off l1.length l1 hn
      rw [splitCh_append_sep '\n' _ _ h1]
      have hl2 : l2.length ≤ m := by
        simp only [List.length_append, List.length_cons] at h hl ⊢
        omega
      rw [ih l2 hl2]
      simp [List.map_cons]
    · rw [splitCh_no_sep '\n' raw hm,
        splitCh_no_sep '\n' (replaceScan off raw)
          (replaceScanAux_no_nl off raw.length raw hm)]
      simp

theorem renderHeaderL_ne_nil (a : Nat) (b : Option (List Char)) (c : Nat)
    (d : Option (List Char)) : renderHeaderL a b c d ≠ [] := by
  unfold renderHeaderL
  intro h
  rw [show ("@@ -".toList : List Char) = '@' :: '@' :: ' ' :: '-' :: [] from rfl]
    at h
  simp at h

theorem parseNumPair_rendered (tc : Char) (tcs : List Char)
    (h1 : isDigitCh tc = false) (h2 : tc ≠ ',') (n : Nat)
    (b : Option (List Char)) (hb : optDigits b) (tail : List Char) :
    parseNumPair (tc :: tcs)
      (natDec n ++ ((if optStr b = [] then [] else ',' :: optStr b) ++
        ((tc :: tcs) ++ tail))) = some (n, b, tail) := by
  have hlead : leadsWith (tc :: tcs) (tc :: (tcs ++ tail)) = true := by
    rw [← List.cons_append]
    exact leadsWith_append_self _ _
  cases b with
  | none =>
    have hinput : natDec n ++
        ((if optStr (none : Option (List Char)) = [] then []
          else ',' :: optStr none) ++ ((tc :: tcs) ++ tail)) =
        natDec n ++ (tc :: (tcs ++ tail)) := by
      simp [optStr, List.cons_append]
    rw [hinput]
    have htd := takeDigits_natDec_append n (tc :: (tcs ++ tail))
      (fun ch hc => by
        rw [List.head?_cons, Option.some.injEq] at hc
        rw [← hc]; exact h1)
    unfold takeDigits at htd
    rw [Prod.mk.injEq] at htd
    obtain ⟨htw, hdw⟩ := htd
    unfold parseNumPair
    rw [htw, hdw]
    rw [if_neg (natDec_ne_nil n), if_neg (by simp [h2] :
      ¬((tc :: (tcs ++ tail) : List Char)).head? = some ','),
      if_pos hlead, digitsVal_natDec]
    rw [← List.cons_append, List.drop_left]
  | some s =>
    obtain ⟨hsne, hsdig⟩ := hb
    have hinput : natDec n ++
        ((if optStr (some s) = [] then [] else ',' :: optStr (some s)) ++
          ((tc :: tcs) ++ tail)) =
        natDec n ++ (',' :: (s ++ (tc :: (tcs ++ tail)))) := by
      simp [optStr, hsne, List.cons_append, List.append_assoc]
    rw [hinput]
    have htd := takeDigits_natDec_append n (',' :: (s ++ (tc :: (tcs ++ tail))))
      (fun ch hc => by
        rw [List.head?_cons, Option.some.injEq] at hc
        rw [← hc]; decide)
    unfold takeDigits at htd
    rw [Prod.mk.injEq] at htd
    obtain ⟨htw, hdw⟩ := htd
    unfold parseNumPair
    rw [htw, hdw]
    rw [if_neg (natDec_ne_nil n)]
    rw [if_pos (by simp :
      ((',' :: (s ++ (tc :: (tcs ++ tail))) : List Char)).head? = some ',')]
    simp only [List.tail_cons]
    have hsp := takeWhile_append_all s (tc :: (tcs ++ tail)) hsdig
    have htc1 : ((tc :: (tcs ++ tail) : List Char)).takeWhile isDigitCh = [] := by
      simp [List.takeWhile_cons, h1]
    have htc2 : ((tc :: (tcs ++ tail) : List Char)).dropWhile isDigitCh =
        tc :: (tcs ++ tail) := by
      simp [List.dropWhile_cons, h1]
    rw [hsp.1, hsp.2, htc1, htc2, List.append_nil]
    rw [if_pos hlead, digitsVal_natDec]
    rw [← List.cons_append, List.drop_left]

theorem tryHeader_rendered (A C : Nat) (B D : Option (List Char))
    (hB : optDigits B) (hD : optDigits D) :
    tryHeader (renderHeaderL A B C D) = some (A, B, C, D, []) := by
  have hshape : renderHeaderL A B C D = "@@ -".toList ++
      (natDec A ++ ((if optStr B = [] then [] else ',' :: optStr B) ++
        ((' ' :: '+' :: []) ++
          (natDec C ++ ((if optStr D = [] then [] else ',' :: optStr D) ++
            ((' ' :: '@' :: '@' :: []) ++ [])))))) := by
    simp [renderHeaderL, List.append_assoc]
  unfold tryHeader
  rw [hshape, dropLit_append]
  simp only [Option.some_bind]
  rw [parseNumPair_rendered ' ' ('+' :: []) (by decide) (by decide) A B hB _]
  simp only [Option.some_bind]
  rw [parseNumPair_rendered ' ' ('@' :: '@' :: []) (by decide) (by decide)
    C D hD []]
  simp only [Option.some_bind]

theorem replaceScan_header (off A C : Nat) (B D : Option (List Char))
    (hB : optDigits B) (hD : optDigits D) :
    replaceScan off (renderHeaderL A B C D) =
      renderHeaderL (A + off) B (C + off) D := by
  have hth := tryHeader_rendered A C B D hB hD
  have hne := renderHeaderL_ne_nil A B C D
  cases hline : renderHeaderL A B C D with
  | nil => exact absurd hline hne
  | cons x t =>
    rw [hline] at hth
    show replaceScanAux off (x :: t).length (x :: t) = _
    simp only [List.length_cons, replaceScanAux]
    rw [hth]
    show renderRepl off A B C D ++ replaceScanAux off t.length [] =
      renderHeaderL (A + off) B (C + off) D
    rw [replaceScanAux_nil, List.append_nil]
    rfl

/-- The rewriting variant of `generateContextDiff`
(src/unnamed/part_011 lines 377-408) does perform the specified rewrite:
for every behaviour of the external two-file-patch computation and every
non-empty expanded line-number input, each line of its context diff that
the underlying window diff produced as a hunk header `@@ -A[,B] +C[,D] @@`
comes out as `@@ -(A+start)[,B] +(C+start)[,D] @@` — start numbers shifted
by the window offset, length fields preserved verbatim.  This is the
behaviour the spec mandates; contrast `generateContextDiffIdx_headers_unshifted`
for the copy in src/index.js lines 449-468. -/
theorem generateContextDiff_spec
    (patchFn : String → String → String)
    (baseContent headContent : String) (bl hl : List Int) (fileName : String)
    (hne : ¬(bl = [] ∧ hl = []))
    (i A C : Nat) (B D : Option (List Char))
    (hB : optDigits B) (hD : optDigits D)
    (hline : (splitCh '\n'
        (patchFn (baseWindow baseContent headContent bl hl)
          (headWindow baseContent headContent bl hl)).toList).getD i [] =
      renderHeaderL A B C D) :
    (splitCh '\n' (generateContextDiff patchFn baseContent headContent bl hl
        fileName).toList).getD i []
      = renderHeaderL (A + windowStart baseContent headContent bl hl) B
          (C + windowStart baseContent headContent bl hl) D := by
  unfold generateContextDiff
  rw [if_neg hne]
  set off := windowStart baseContent headContent bl hl with hoff
  set raw := (patchFn (baseWindow baseContent headContent bl hl)
    (headWindow baseContent headContent bl hl)).toList with hraw
  show (splitCh '\n' (replaceScan off raw)).getD i [] = _
  rw [replaceScan_lines off raw.length raw (le_refl _)]
  by_cases hi : i < (splitCh '\n' raw).length
  · rw [List.getD_eq_getElem _ _ (by simpa using hi)]
    rw [List.getD_eq_getElem _ _ hi] at hline
    rw [List.getElem_map]
    rw [hline]
    exact replaceScan_header off A C B D hB hD
  · rw [List.getD_eq_default _ _ (by simpa using Nat.le_of_not_lt hi)]
    rw [List.getD_eq_default _ _ (Nat.le_of_not_lt hi)] at hline
    exact absurd hline.symm (renderHeaderL_ne_nil A B C D)

/-- Closed instance of `generateContextDiff_spec`: the constant window diff
`@@ -1,5 +2,6 @@` for changed lines `[30]` on both sides (window offset 19)
is rewritten to `@@ -20,5 +21,6 @@`. -/
theorem generateContextDiff_spec_witness :
    ¬(([30] : List Int) = [] ∧ ([30] : List Int) = []) ∧
    (splitCh '\n' (generateContextDiff (fun _ _ => "@@ -1,5 +2,6 @@")
        "x" "y" [30] [30] "f").toList).getD 0 []
      = renderHeaderL (1 + windowStart "x" "y" [30] [30]) (some ('5' :: []))
          (2 + windowStart "x" "y" [30] [30]) (some ('6' :: [])) :=
  ⟨by decide,
    generateContextDiff_spec (fun _ _ => "@@ -1,5 +2,6 @@") "x" "y"
      [30] [30] "f" (by decide) 0 1 2 (some ('5' :: [])) (some ('6' :: []))
      (by exact ⟨by decide, by decide⟩) (by exact ⟨by decide, by decide⟩)
      (by decide)⟩

/-- C1: the claim is false of the cited `generateContextDiff` in
src/index.js lines 449-468, the copy called by `processFileDiff`
(line 520): with non-empty line-number input it returns the window diff of
`createTwoFilesPatch` verbatim (no header-rewriting replace), so every hunk
header keeps its window-relative start numbers; and whenever the window
offset `start` is positive, that header differs from the rewritten header
the claim and spec require (shown by parsing both rendered headers back,
which is injective in the start numbers).  The rewrite exists only in the
src/unnamed/part_011 variant, proved in `generateContextDiff_spec`. -/
theorem generateContextDiffIdx_headers_unshifted
    (patchFn : String → String → String)
    (baseContent headContent : String) (bl hl : List Int) (fileName : String)
    (hne : ¬(bl = [] ∧ hl = []))
    (i A C : Nat) (B D : Option (List Char))
    (hB : optDigits B) (hD : optDigits D)
    (hline : (splitCh '\n'
        (patchFn (baseWindow baseContent headContent bl hl)
          (headWindow baseContent headContent bl hl)).toList).getD i [] =
      renderHeaderL A B C D) :
    (splitCh '\n' (generateContextDiffIdx patchFn baseContent headContent
        bl hl fileName).toList).getD i [] = renderHeaderL A B C D ∧
    (0 < windowStart baseContent headContent bl hl →
      renderHeaderL A B C D ≠
        renderHeaderL (A + windowStart baseContent headContent bl hl) B
          (C + windowStart baseContent headContent bl hl) D) := by
  constructor
  · unfold generateContextDiffIdx
    rw [if_neg hne]
    exact hline
  · intro hoff heq
    have h1 := tryHeader_rendered A C B D hB hD
    have h2 := tryHeader_rendered (A + windowStart baseContent headContent bl hl)
      (C + windowStart baseContent headContent bl hl) B D hB hD
    rw [heq, h2] at h1
    simp only [Option.some.injEq, Prod.mk.injEq] at h1
    obtain ⟨h1a, -⟩ := h1
    omega

/-- Closed instance of `generateContextDiffIdx_headers_unshifted`: for
changed lines `[30]` on both sides (window offset 19), the constant window
diff header `@@ -1,5 +2,6 @@` is returned verbatim by the src/index.js
copy, and differs from the required `@@ -20,5 +21,6 @@`. -/
theorem generateContextDiffIdx_headers_unshifted_witness :
    ¬(([30] : List Int) = [] ∧ ([30] : List Int) = []) ∧
    ((splitCh '\n' (generateContextDiffIdx (fun _ _ => "@@ -1,5 +2,6 @@")
        "x" "y" [30] [30] "f").toList).getD 0 []
      = renderHeaderL 1 (some ('5' :: [])) 2 (some ('6' :: [])) ∧
     (0 < windowStart "x" "y" [30] [30] →
       renderHeaderL 1 (some ('5' :: [])) 2 (some ('6' :: [])) ≠
         renderHeaderL (1 + windowStart "x" "y" [30] [30]) (some ('5' :: []))
           (2 + windowStart "x" "y" [30] [30]) (some ('6' :: [])))) :=
  ⟨by decide,
    generateContextDiffIdx_headers_unshifted (fun _ _ => "@@ -1,5 +2,6 @@")
      "x" "y" [30] [30] "f" (by decide) 0 1 2
      (some ('5' :: [])) (some ('6' :: []))
      (by exact ⟨by decide, by decide⟩) (by exact ⟨by decide, by decide⟩)
      (by decide)⟩

/-- C9 counterexample: when the review-body update of line 758 throws and
the error-body post of the top-level catch (line 765) then also throws, the
inner catch at line 767 swallows the second failure and the run ends with
no terminal comment transition at all — silence — although no exception
propagates.  This refutes the claimed "never silence". -/
theorem processReviewCommand_silence_counterexample :
    (processReviewCommandRun
      { hasInitialComment := true, createInitial := Except.ok (),
        commitMessages := Except.ok (), fileSteps := [],
        managerAnalysis := Except.ok (), fanoutTasks := [],
        finalSummaryAnalysis := Except.ok (),
        finalUpdate := Except.error "update failed",
        errorPost := Except.error "update failed again" }).2 = [] ∧
    (processReviewCommandRun
      { hasInitialComment := true, createInitial := Except.ok (),
        commitMessages := Except.ok (), fileSteps := [],
        managerAnalysis := Except.ok (), fanoutTasks := [],
        finalSummaryAnalysis := Except.ok (),
        finalUpdate := Except.error "update failed",
        errorPost := Except.error "update failed again" }).1 = none := by
  exact ⟨rfl, rfl⟩

/-- C9 (amended): `processReviewCommand` never propagates an exception, for
every combination of external-call outcomes; and whenever the error-body
post of the top-level catch succeeds, the run terminates with exactly one
terminal comment transition — the full review body or the generic error
body.  (As claimed, without the proviso on the error-body post, the
"never silence" part is false: see the counterexample.) -/
theorem processReviewCommand_errorHandling_spec (env : ReviewEnv)
    (h : env.errorPost = Except.ok ()) :
    (∀ env2 : ReviewEnv, (processReviewCommandRun env2).1 = none) ∧
    ((processReviewCommandRun env).2 = [Transition.reviewBody] ∨
     (processReviewCommandRun env).2 = [Transition.errorBody]) := by
  constructor
  · intro env2
    have hc : (runCatch env2).1 = none := by
      unfold runCatch
      split <;> rfl
    have hf : (reviewAfterFanout env2).1 = none := by
      unfold reviewAfterFanout
      split
      · exact hc
      · rfl
    have hm : (reviewAfterManager env2).1 = none := by
      unfold reviewAfterManager
      split
      · exact hc
      · split <;> exact hf
    unfold processReviewCommandRun
    split
    · exact hc
    · split
      · exact hc
      · split
        · exact hc
        · split <;> exact hm
  · have hc : (runCatch env).2 = [Transition.errorBody] := by
      unfold runCatch
      rw [h]
    have hf : (reviewAfterFanout env).2 = [Transition.reviewBody] ∨
        (reviewAfterFanout env).2 = [Transition.errorBody] := by
      unfold reviewAfterFanout
      split
      · exact Or.inr hc
      · exact Or.inl rfl
    have hm : (reviewAfterManager env).2 = [Transition.reviewBody] ∨
        (reviewAfterManager env).2 = [Transition.errorBody] := by
      unfold reviewAfterManager
      split
      · exact Or.inr hc
      · split <;> exact hf
    unfold processReviewCommandRun
    split
    · exact Or.inr hc
    · split
      · exact Or.inr hc
      · split
        · exact Or.inr hc
        · split <;> exact hm

/-- Closed instance of `processReviewCommand_errorHandling_spec` on a run
whose file step fails but whose error-body post succeeds. -/
theorem processReviewCommand_errorHandling_spec_witness :
    ({ hasInitialComment := false, createInitial := Except.ok (),
        commitMessages := Except.ok (),
        fileSteps := [Except.error "boom"],
        managerAnalysis := Except.ok (), fanoutTasks := [],
        finalSummaryAnalysis := Except.ok (),
        finalUpdate := Except.ok (),
        errorPost := Except.ok () } : ReviewEnv).errorPost = Except.ok () ∧
    ((∀ env2 : ReviewEnv, (processReviewCommandRun env2).1 = none) ∧
     ((processReviewCommandRun
        { hasInitialComment := false, createInitial := Except.ok (),
          commitMessages := Except.ok (),
          fileSteps := [Except.error "boom"],
          managerAnalysis := Except.ok (), fanoutTasks := [],
          finalSummaryAnalysis := Except.ok (),
          finalUpdate := Except.ok (),
          errorPost := Except.ok () }).2 = [Transition.reviewBody] ∨
      (processReviewCommandRun
        { hasInitialComment := false, createInitial := Except.ok (),
          commitMessages := Except.ok (),
          fileSteps := [Except.error "boom"],
          managerAnalysis := Except.ok (), fanoutTasks := [],
          finalSummaryAnalysis := Except.ok (),
          finalUpdate := Except.ok (),
          errorPost := Except.ok () }).2 = [Transition.errorBody])) :=
  ⟨rfl, processReviewCommand_errorHandling_spec _ rfl⟩

theorem exErr_ok (s : String) : exErr (Except.ok s) = none := rfl

theorem exErr_error (m : String) : exErr (Except.error m) = some m := rfl

theorem optOr_some (m : String) (b : Option String) :
    optOr (some m) b = some m := rfl

theorem optOr_none (b : Option String) : optOr none b = b := rfl

theorem expandThrowErr_ok_ok (typeErr : String) (env : FileDiffEnv)
    (file : PRFile) (bc hc : String)
    (hb : env.baseFileContent = Except.ok bc)
    (hh : env.headFileContent = Except.ok hc) :
    expandThrowErr typeErr env file =
      (if expandThrows hc
          (getChangedLineNumbers (file.patch.getD "")).headLines then
        some typeErr
      else if expandThrows bc
          (getChangedLineNumbers (file.patch.getD "")).baseLines then
        some typeErr
      else none) := by
  unfold expandThrowErr
  rw [hb, hh]

theorem processFileDiffSteps_spec (patchFn pkgSummary : String → String → String)
    (typeErr : String)
    (env : FileDiffEnv) (file : PRFile) (prBody : Option String)
    (baseSha headSha : String) (fi0 : FileInfo) :
    (∀ r, processFileDiffSteps patchFn pkgSummary typeErr env file prBody
        baseSha headSha fi0 = Except.ok r →
      r.filename = fi0.filename ∧ r.status = fi0.status ∧
      r.error = fi0.error ∧ fileDiffFirstErr typeErr env file = none) ∧
    (∀ m r, processFileDiffSteps patchFn pkgSummary typeErr env file prBody
        baseSha headSha fi0 = Except.error (m, r) →
      r.filename = fi0.filename ∧ r.status = fi0.status ∧
      r.error = fi0.error ∧ fileDiffFirstErr typeErr env file = some m) := by
  unfold processFileDiffSteps fileDiffFirstErr
  cases hri : env.repoInstructions with
  | error m0 =>
    rw [exErr_error, optOr_some]
    constructor
    · intro r h
      try dsimp only at h
      exact absurd h (by simp)
    · intro m r h
      try dsimp only at h
      simp only [Except.error.injEq, Prod.mk.injEq] at h
      obtain ⟨hm, hr⟩ := h
      rw [← hr, hm]
      exact ⟨rfl, rfl, rfl, rfl⟩
  | ok instr =>
    rw [exErr_ok, optOr_none]
    by_cases h1 : file.status = "added"
    · rw [if_pos h1]
      cases hhc : env.headFileContent with
      | error m1 =>
        rw [exErr_error]
        constructor
        · intro r h
          try dsimp only at h
          rw [if_pos h1] at h
          try dsimp only at h
          exact absurd h (by simp)
        · intro m r h
          try dsimp only at h
          rw [if_pos h1] at h
          try dsimp only at h
          simp only [Except.error.injEq, Prod.mk.injEq] at h
          obtain ⟨hm, hr⟩ := h
          rw [← hr, hm]
          exact ⟨rfl, rfl, rfl, rfl⟩
      | ok content =>
        rw [exErr_ok]
        constructor
        · intro r h
          try dsimp only at h
          rw [if_pos h1] at h
          try dsimp only at h
          have hr := Except.ok.inj h
          rw [← hr]
          exact ⟨rfl, rfl, rfl, rfl⟩
        · intro m r h
          try dsimp only at h
          rw [if_pos h1] at h
          try dsimp only at h
          exact absurd h (by simp)
    · rw [if_neg h1]
      by_cases h2 : file.status = "removed"
      · rw [if_pos h2]
        cases hbc : env.baseFileContent with
        | error m1 =>
          rw [exErr_error]
          constructor
          · intro r h
            try dsimp only at h
            rw [if_neg h1, if_pos h2] at h
            try dsimp only at h
            exact absurd h (by simp)
          · intro m r h
            try dsimp only at h
            rw [if_neg h1, if_pos h2] at h
            try dsimp only at h
            simp only [Except.error.injEq, Prod.mk.injEq] at h
            obtain ⟨hm, hr⟩ := h
            rw [← hr, hm]
            exact ⟨rfl, rfl, rfl, rfl⟩
        | ok content =>
          rw [exErr_ok]
          constructor
          · intro r h
            try dsimp only at h
            rw [if_neg h1, if_pos h2] at h
            try dsimp only at h
            have hr := Except.ok.inj h
            rw [← hr]
            exact ⟨rfl, rfl, rfl, rfl⟩
          · intro m r h
            try dsimp only at h
            rw [if_neg h1, if_pos h2] at h
            try dsimp only at h
            exact absurd h (by simp)
      · rw [if_neg h2]
        by_cases h3 : file.status = "modified" ∨ file.status = "renamed"
        · rw [if_pos h3]
          cases hbc : env.baseFileContent with
          | error m1 =>
            rw [exErr_error, optOr_some]
            constructor
            · intro r h
              try dsimp only at h
              rw [if_neg h1, if_neg h2, if_pos h3] at h
              try dsimp only at h
              exact absurd h (by simp)
            · intro m r h
              try dsimp only at h
              rw [if_neg h1, if_neg h2, if_pos h3] at h
              try dsimp only at h
              simp only [Except.error.injEq, Prod.mk.injEq] at h
              obtain ⟨hm, hr⟩ := h
              rw [← hr, hm]
              exact ⟨rfl, rfl, rfl, rfl⟩
          | ok baseContent =>
            rw [exErr_ok, optOr_none]
            cases hhc : env.headFileContent with
            | error m1 =>
              rw [exErr_error, optOr_some]
              constructor
              · intro r h
                try dsimp only at h
                rw [if_neg h1, if_neg h2, if_pos h3] at h
                try dsimp only at h
                exact absurd h (by simp)
              · intro m r h
                try dsimp only at h
                rw [if_neg h1, if_neg h2, if_pos h3] at h
                try dsimp only at h
                simp only [Except.error.injEq, Prod.mk.injEq] at h
                obtain ⟨hm, hr⟩ := h
                rw [← hr, hm]
                exact ⟨rfl, rfl, rfl, rfl⟩
            | ok headContent =>
              rw [exErr_ok, optOr_none]
              rw [expandThrowErr_ok_ok typeErr env file baseContent
                headContent hbc hhc]
              by_cases hth : expandThrows headContent
                  (getChangedLineNumbers (file.patch.getD "")).headLines = true
              · rw [if_pos hth]
                constructor
                · intro r h
                  try dsimp only at h
                  rw [if_neg h1, if_neg h2, if_pos h3] at h
                  try dsimp only at h
                  rw [if_pos hth] at h
                  exact absurd h (by simp)
                · intro m r h
                  try dsimp only at h
                  rw [if_neg h1, if_neg h2, if_pos h3] at h
                  try dsimp only at h
                  rw [if_pos hth] at h
                  simp only [Except.error.injEq, Prod.mk.injEq] at h
                  obtain ⟨hm, hr⟩ := h
                  rw [← hr, hm]
                  exact ⟨rfl, rfl, rfl, rfl⟩
              · rw [if_neg hth]
                by_cases htb : expandThrows baseContent
                    (getChangedLineNumbers (file.patch.getD "")).baseLines = true
                · rw [if_pos htb]
                  constructor
                  · intro r h
                    try dsimp only at h
                    rw [if_neg h1, if_neg h2, if_pos h3] at h
                    try dsimp only at h
                    rw [if_neg hth, if_pos htb] at h
                    exact absurd h (by simp)
                  · intro m r h
                    try dsimp only at h
                    rw [if_neg h1, if_neg h2, if_pos h3] at h
                    try dsimp only at h
                    rw [if_neg hth, if_pos htb] at h
                    simp only [Except.error.injEq, Prod.mk.injEq] at h
                    obtain ⟨hm, hr⟩ := h
                    rw [← hr, hm]
                    exact ⟨rfl, rfl, rfl, rfl⟩
                · rw [if_neg htb]
                  constructor
                  · intro r h
                    try dsimp only at h
                    rw [if_neg h1, if_neg h2, if_pos h3] at h
                    try dsimp only at h
                    rw [if_neg hth, if_neg htb] at h
                    try dsimp only at h
                    have hr := Except.ok.inj h
                    rw [← hr]
                    exact ⟨rfl, rfl, rfl, rfl⟩
                  · intro m r h
                    try dsimp only at h
                    rw [if_neg h1, if_neg h2, if_pos h3] at h
                    try dsimp only at h
                    rw [if_neg hth, if_neg htb] at h
                    try dsimp only at h
                    exact absurd h (by simp)
        · rw [if_neg h3]
          constructor
          · intro r h
            try dsimp only at h
            rw [if_neg h1, if_neg h2, if_neg h3] at h
            try dsimp only at h
            have hr := Except.ok.inj h
            rw [← hr]
            exact ⟨rfl, rfl, rfl, rfl⟩
          · intro m r h
            try dsimp only at h
            rw [if_neg h1, if_neg h2, if_neg h3] at h
            try dsimp only at h
            exact absurd h (by simp)

/-- C10: `processFileDiff` is total at its interface: the returned record
always carries the input file descriptor filename and status; a
binary-extension filename returns immediately with
`error = Binary file - skipped` and empty diff and context
(src/index.js lines 488-490); and on a non-binary filename the error field
is exactly the message of the first exception of the body — the first
failing awaited call, or the `TypeError` thrown by the
`expandLineNumbersToBlock` calls of lines 515-516 when the patch names
lines beyond the fetched content (e.g. the `[File not found or deleted]`
placeholder that `getFileContent` resolves with on a 404, as for every
renamed file) — prefixed with `Processing error: ` (the catch of lines
533-538), and `none` when no exception occurs: an internal exception is
converted into the error field of the returned record, never
propagated. -/
theorem processFileDiff_spec (patchFn pkgSummary : String → String → String)
    (typeErr : String)
    (env : FileDiffEnv) (file : PRFile) (prBody : Option String)
    (baseSha headSha : String) :
    (processFileDiffModel patchFn pkgSummary typeErr env file prBody baseSha
        headSha).filename = file.filename ∧
    (processFileDiffModel patchFn pkgSummary typeErr env file prBody baseSha
        headSha).status = file.status ∧
    (isBinaryFilename file.filename = true →
      (processFileDiffModel patchFn pkgSummary typeErr env file prBody baseSha
          headSha).error = some "Binary file - skipped" ∧
      (processFileDiffModel patchFn pkgSummary typeErr env file prBody baseSha
          headSha).diff = "" ∧
      (processFileDiffModel patchFn pkgSummary typeErr env file prBody baseSha
          headSha).context = "") ∧
    (isBinaryFilename file.filename = false →
      (processFileDiffModel patchFn pkgSummary typeErr env file prBody baseSha
          headSha).error =
        (fileDiffFirstErr typeErr env file).map
          (fun m => "Processing error: " ++ m)) := by
  unfold processFileDiffModel
  by_cases hb : isBinaryFilename file.filename
  · rw [if_pos hb]
    exact ⟨rfl, rfl, fun _ => ⟨rfl, rfl, rfl⟩,
      fun hfalse => absurd hb (by rw [hfalse]; exact Bool.false_ne_true)⟩
  · rw [if_neg hb]
    have hsteps := processFileDiffSteps_spec patchFn pkgSummary typeErr env
      file prBody baseSha headSha
      { filename := file.filename, status := file.status,
        changes := file.changes, additions := file.additions,
        deletions := file.deletions, error := none, diff := "",
        context := "", changedLines := [], headContent := "",
        instructions := "" }
    cases hst : processFileDiffSteps patchFn pkgSummary typeErr env file
        prBody baseSha headSha
        { filename := file.filename, status := file.status,
          changes := file.changes, additions := file.additions,
          deletions := file.deletions, error := none, diff := "",
          context := "", changedLines := [], headContent := "",
          instructions := "" } with
    | ok r =>
      obtain ⟨hfn, hstt, herr, hfe⟩ := hsteps.1 r hst
      refine ⟨hfn, hstt, fun htrue => absurd hb (by rw [htrue]; simp), ?_⟩
      intro _
      rw [herr, hfe]
      rfl
    | error p =>
      obtain ⟨m, r⟩ := p
      obtain ⟨hfn, hstt, herr, hfe⟩ := hsteps.2 m r hst
      refine ⟨hfn, hstt, fun htrue => absurd hb (by rw [htrue]; simp), ?_⟩
      intro _
      rw [hfe]
      show ({ r with error := some ("Processing error: " ++ m) }).error = _
      rfl

/-- Closed instance of `processFileDiff_spec`: a binary filename is
immediately skipped; and a renamed file whose patch names line 30 while the
fetched contents are shorter (the base fetch resolving with the one-line
`[File not found or deleted]` placeholder) hits the `TypeError` of the
line 515-516 expands, surfacing as the `Processing error: ` field although
every awaited call succeeded. -/
theorem processFileDiff_spec_witness :
    (isBinaryFilename "logo.PNG" = true ∧
      (processFileDiffModel (fun _ _ => "") (fun _ _ => "")
        "Cannot read properties of undefined (reading \x27match\x27)"
        ⟨Except.ok "", Except.ok "", Except.ok ""⟩
        ⟨"logo.PNG", "added", none, 1, 1, 0⟩ none "b" "h").error =
        some "Binary file - skipped") ∧
    (isBinaryFilename "new.js" = false ∧
      (processFileDiffModel (fun _ _ => "") (fun _ _ => "")
        "Cannot read properties of undefined (reading \x27match\x27)"
        ⟨Except.ok "", Except.ok "ok", Except.ok "[File not found or deleted]"⟩
        ⟨"new.js", "renamed", some "@@ -30,1 +30,1 @@\n-x\n+y", 2, 1, 1⟩
        none "b" "h").error =
        some ("Processing error: " ++
          "Cannot read properties of undefined (reading \x27match\x27)")) :=
  ⟨⟨by decide,
    ((processFileDiff_spec (fun _ _ => "") (fun _ _ => "")
      "Cannot read properties of undefined (reading \x27match\x27)"
      ⟨Except.ok "", Except.ok "", Except.ok ""⟩
      ⟨"logo.PNG", "added", none, 1, 1, 0⟩ none "b" "h").2.2.1
      (by decide)).1⟩,
   ⟨by decide,
    ((processFileDiff_spec (fun _ _ => "") (fun _ _ => "")
      "Cannot read properties of undefined (reading \x27match\x27)"
      ⟨Except.ok "", Except.ok "ok", Except.ok "[File not found or deleted]"⟩
      ⟨"new.js", "renamed", some "@@ -30,1 +30,1 @@\n-x\n+y", 2, 1, 1⟩
      none "b" "h").2.2.2
      (by decide)).trans (by decide)⟩⟩

/-- Closed instance of `processReviewCommand_posting_spec` on a concrete
finding sequence (a duplicate normalised comment and a filtered one). -/
theorem processReviewCommand_posting_spec_witness :
    (processReviewPostedComments
        [⟨[4, 7], "Use const here.", true⟩,
         ⟨[9], " use const here. ", true⟩,
         ⟨[2], "No issues found.", true⟩]).Pairwise
      (fun p q => lowerL (trimL p.body) ≠ lowerL (trimL q.body)) ∧
    ∀ p ∈ processReviewPostedComments
        [⟨[4, 7], "Use const here.", true⟩,
         ⟨[9], " use const here. ", true⟩,
         ⟨[2], "No issues found.", true⟩],
      p.line = p.lines.getD 0 0 ∧ p.side = "RIGHT" :=
  processReviewCommand_posting_spec
    [⟨[4, 7], "Use const here.", true⟩,
     ⟨[9], " use const here. ", true⟩,
     ⟨[2], "No issues found.", true⟩]

end GhReview
